import Mathlib

/-!
Verification development for the synotra-vscode language-analysis core.

The TypeScript sources are embedded shallowly:
* `src/src/inference.ts` (InferenceEngine, typeToString) — the type-inference
  pipeline `inferFromText` and all its scan passes;
* `src/unnamed/part_004` (Parser) — the line-oriented block parser;
* `src/unnamed/part_006` (ScopeResolver) — `getSymbolsAtLine`;
* `src/unnamed/part_008` (TypeRegistry) — built-in/user type catalog with
  generic substitution.

JavaScript regular expressions are compiled by hand into executable functions
over `List Char`.  Where a regex needs genuine backtracking (lazy groups whose
viability depends on later context) the translation enumerates candidate
splits in exactly the JS engine's preference order (greedy = longest first,
lazy = shortest first, alternatives left to right, leftmost match position
wins); where the junction of two sub-patterns is deterministic (for example a
greedy character-class run followed by a character outside that class) the
translation uses `takeWhile`/`dropWhile` directly, with a comment justifying
the determinism.  Every definition is written with structural recursion so
that concrete runs reduce by `rfl`/`decide`; the parser's line loop carries an
explicit structural counter `fuel` that equals `lines.length - i` at every
call, mirroring the `for (let i = ...; i <= endLine; i++)` loop exactly
(including the `i = blockEnd` jumps, compiled into a `skip` bound).
-/

/-! ## Characters, whitespace, identifiers -/

/-- JS `\s` / `trim` whitespace, restricted to the ASCII characters that can
occur here (space, tab, LF, CR, VT, FF). -/
def jsWs (c : Char) : Bool :=
  c = ' ' || c = '\t' || c = '\n' || c = '\r' || c = Char.ofNat 11 || c = Char.ofNat 12

/-- JS `\w` / `[a-zA-Z0-9_]`. -/
def wordChar (c : Char) : Bool :=
  c.isAlpha || c.isDigit || c = '_'

/-- JS `[a-zA-Z_]`: the first character of an identifier. -/
def identStartChar (c : Char) : Bool :=
  c.isAlpha || c = '_'

/-- JS `.` (dot metacharacter): any character except a line terminator. -/
def dotChar (c : Char) : Bool :=
  c ≠ '\n' && c ≠ '\r'

/-- The opening brace character (written via its code point). -/
def braceL : Char := Char.ofNat 123

/-- The closing brace character (written via its code point). -/
def braceR : Char := Char.ofNat 125

/-- JS `String.prototype.trim` on a character list. -/
def jsTrimL (s : List Char) : List Char :=
  ((s.dropWhile jsWs).reverse.dropWhile jsWs).reverse

/-- JS `String.prototype.trim`. -/
def jsTrim (s : String) : String :=
  String.mk (jsTrimL s.data)

/-- Word-boundary test for `\b` placed before a word character: the previous
character (`none` at the start of the string) must not be a word character. -/
def boundaryBefore : Option Char → Bool
  | none => true
  | some c => !wordChar c

/-- Strip a literal pattern from the front of the input, returning the rest. -/
def stripLit : List Char → List Char → Option (List Char)
  | [], s => some s
  | _ :: _, [] => none
  | p :: ps, c :: cs => if p = c then stripLit ps cs else none

/-- All splits `s = pre ++ rest` where every character of `pre` satisfies
`cls`, shortest prefix first (the lazy preference order). -/
def splitsWhile (cls : Char → Bool) : List Char → List (List Char × List Char)
  | [] => [([], [])]
  | c :: rest =>
    ([], c :: rest) ::
      (if cls c then (splitsWhile cls rest).map (fun p => (c :: p.1, p.2)) else [])

/-- Greedy (longest-first) candidate splits for a starred character class. -/
def splitsGreedy (cls : Char → Bool) (s : List Char) : List (List Char × List Char) :=
  (splitsWhile cls s).reverse

/-- Greedy candidate splits for a `+`-quantified character class (non-empty). -/
def splitsPlusGreedy (cls : Char → Bool) (s : List Char) : List (List Char × List Char) :=
  (splitsGreedy cls s).filter (fun p => !p.1.isEmpty)

/-- Lazy (shortest-first) candidate splits for a `+?`-quantified class. -/
def splitsPlusLazy (cls : Char → Bool) (s : List Char) : List (List Char × List Char) :=
  (splitsWhile cls s).filter (fun p => !p.1.isEmpty)

/-- The deterministic maximal-munch split for a greedy character class whose
follow-set is disjoint from the class (no backtracking can help, because any
shorter prefix leaves a class character that the next sub-pattern rejects). -/
def munch (cls : Char → Bool) (s : List Char) : List Char × List Char :=
  (s.takeWhile cls, s.dropWhile cls)

/-- Maximal identifier at the front of the input: `[a-zA-Z_][a-zA-Z0-9_]*`
greedy.  Deterministic whenever the following sub-pattern rejects word
characters, which is the case at every use below. -/
def identMunch : List Char → Option (List Char × List Char)
  | [] => none
  | c :: rest =>
    if identStartChar c then
      some (c :: rest.takeWhile wordChar, rest.dropWhile wordChar)
    else
      none

/-- Leftmost-match driver: try the pattern at position 0, then at position 1,
and so on, exactly like an unanchored JS regex.  The pattern receives the
previous character (for `\b`) and the suffix starting at the position. -/
def leftmost (f : Option Char → List Char → Option α) : Option Char → List Char → Option α
  | prev, [] => f prev []
  | prev, c :: rest =>
    match f prev (c :: rest) with
    | some a => some a
    | none => leftmost f (some c) rest

/-- `line.match(re)` for an unanchored pattern: scan from the start. -/
def matchFirst (f : Option Char → List Char → Option α) (s : List Char) : Option α :=
  leftmost f none s

/-- Substring containment (`line.includes(kw)`). -/
def includesL (kw : List Char) : List Char → Bool
  | [] => (stripLit kw []).isSome
  | c :: rest => (stripLit kw (c :: rest)).isSome || includesL kw rest

/-! ## Splitting text into lines -/

/-- `text.split("\n")` (the Parser's splitter: a `\r` before the `\n` is kept). -/
def splitLinesLF : List Char → List (List Char)
  | [] => [[]]
  | c :: rest =>
    if c = '\n' then [] :: splitLinesLF rest
    else
      match splitLinesLF rest with
      | [] => [[c]]
      | l :: ls => (c :: l) :: ls

/-- `text.split(/\r?\n/)` (the InferenceEngine's splitter: a `\r` immediately
before a `\n` is consumed with it; a lone `\r` is an ordinary character). -/
def splitLinesCRLF : List Char → List (List Char)
  | [] => [[]]
  | '\n' :: rest => [] :: splitLinesCRLF rest
  | '\r' :: '\n' :: rest => [] :: splitLinesCRLF rest
  | c :: rest =>
    match splitLinesCRLF rest with
    | [] => [[c]]
    | l :: ls => (c :: l) :: ls

/-! ## Type descriptors (`TypeKind`, `TypeInfo` from inference.ts) -/

/-- The `TypeKind` string union of inference.ts, as a closed enum. -/
inductive TypeKind where
  | Int | String | Bool | List | MutableMap | MutableSet | Function | Custom | Unknown | Unit
deriving DecidableEq, Repr

/-- The string value of a `TypeKind` tag (TS stores the kind as this string). -/
def kindStr : TypeKind → String
  | .Int => "Int"
  | .String => "String"
  | .Bool => "Bool"
  | .List => "List"
  | .MutableMap => "MutableMap"
  | .MutableSet => "MutableSet"
  | .Function => "Function"
  | .Custom => "Custom"
  | .Unknown => "Unknown"
  | .Unit => "Unit"

/-- `TypeInfo` of inference.ts: kind, optional generics, optional display name,
optional explicit-annotation flag (TS `hasTypeAnnotation`; `none` models the
absent/undefined field). -/
inductive TypeInfo where
  | mk (kind : TypeKind) (generics : Option (List TypeInfo)) (readonlyName : Option String)
       (hasTypeAnn : Option Bool) : TypeInfo
deriving Repr

/-- Field accessor: kind tag. -/
def TypeInfo.kind : TypeInfo → TypeKind
  | .mk k _ _ _ => k

/-- Field accessor: generic arguments. -/
def TypeInfo.generics : TypeInfo → Option (List TypeInfo)
  | .mk _ g _ _ => g

/-- Field accessor: display name. -/
def TypeInfo.readonlyName : TypeInfo → Option String
  | .mk _ _ n _ => n

/-- Field accessor: explicit-annotation flag (TS `hasTypeAnnotation`). -/
def TypeInfo.hasTypeAnn : TypeInfo → Option Bool
  | .mk _ _ _ h => h

/-- The `make` helper of inference.ts (all four fields explicit). -/
def make (kind : TypeKind) (generics : Option (List TypeInfo)) (readonlyName : Option String)
    (hasTypeAnn : Option Bool) : TypeInfo :=
  .mk kind generics readonlyName hasTypeAnn

/-- `annotatedType.hasTypeAnnotation = true` — the field mutation performed on
the result of `parseTypeString` for annotated declarations. -/
def setAnnotated : TypeInfo → TypeInfo
  | .mk k g n _ => .mk k g n (some true)

mutual
/-- `typeToString` of inference.ts, for a present descriptor; the generic
arguments are rendered comma-space separated (`join(", ")`). -/
def typeToString : TypeInfo → String
  | .mk k g n _ =>
    match g with
    | none => n.getD (kindStr k)
    | some [] => n.getD (kindStr k)
    | some gs => (n.getD (kindStr k)) ++ "<" ++ typeToStringList gs ++ ">"

/-- The `join(", ")` over the rendered generic arguments. -/
def typeToStringList : List TypeInfo → String
  | [] => ""
  | [x] => typeToString x
  | x :: y :: xs => typeToString x ++ ", " ++ typeToStringList (y :: xs)
end

/-- `typeToString(t?)` including the `undefined → "Unknown"` branch. -/
def typeToStringOpt : Option TypeInfo → String
  | none => "Unknown"
  | some ti => typeToString ti

/-! ## The name → TypeInfo map

JS `Map` with string keys: `set` updates an existing key in place (keeping its
position) or appends a new binding; `get` returns the unique binding. -/

/-- The engine's `types` / `functionReturnTypes` maps, as an association list
in insertion order. -/
abbrev TMap := List (String × TypeInfo)

/-- Empty map (`new Map()`). -/
def TMap.empty : TMap := []

/-- `map.set(k, v)`. -/
def tset : TMap → String → TypeInfo → TMap
  | [], k, v => [(k, v)]
  | (k', v') :: rest, k, v =>
    if k' = k then (k', v) :: rest else (k', v') :: tset rest k v

/-- `map.get(k)` (`undefined` as `none`). -/
def tget : TMap → String → Option TypeInfo
  | [], _ => none
  | (k', v') :: rest, k => if k' = k then some v' else tget rest k

/-- `map.has(k)`. -/
def thas : TMap → String → Bool
  | [], _ => false
  | (k', _) :: rest, k => k' = k || thas rest k

/-! ## parseCommaSeparated / extractGenericContent / parseTypeString

Shared verbatim between `InferenceEngine` (inference.ts), `TypeParser`
(src/src/inference/engine/typeParser.ts) and `TypeRegistry` (part_008): split
on top-level commas tracking one depth counter across all four bracket kinds,
extract angle-bracket content by depth, and parse type strings recursively. -/

/-- One step of the comma splitter: is this an opening bracket? -/
def isOpenBracket (c : Char) : Bool :=
  c = '(' || c = '[' || c = braceL || c = '<'

/-- One step of the comma splitter: is this a closing bracket? -/
def isCloseBracket (c : Char) : Bool :=
  c = ')' || c = ']' || c = braceR || c = '>'

/-- The character loop of `parseCommaSeparated`: `cur` is the pending chunk
(reversed), `depth` the bracket depth, `acc` the finished arguments
(reversed).  At a depth-0 comma the pending chunk is pushed (trimmed); at the
end the last chunk is pushed only if its trim is non-empty. -/
def pcsAux : List Char → List Char → Int → List (List Char) → List (List Char)
  | [], cur, _, acc =>
    let last := jsTrimL cur.reverse
    (if last.isEmpty then acc else last :: acc).reverse
  | c :: rest, cur, depth, acc =>
    if isOpenBracket c then pcsAux rest (c :: cur) (depth + 1) acc
    else if isCloseBracket c then pcsAux rest (c :: cur) (depth - 1) acc
    else if c = ',' && depth = 0 then pcsAux rest [] depth (jsTrimL cur.reverse :: acc)
    else pcsAux rest (c :: cur) depth acc

/-- `parseCommaSeparated` of inference.ts / typeParser.ts / part_008. -/
def parseCommaSeparated (s : List Char) : List (List Char) :=
  pcsAux s [] 0 []

/-- The indexed scan of `extractGenericContent`: starting just after the first
`<` (depth 1), return the characters up to the matching `>` if the depth ever
returns to zero. -/
def egcScan : List Char → Int → List Char → Option (List Char)
  | [], _, _ => none
  | c :: rest, depth, acc =>
    if c = '<' then egcScan rest (depth + 1) (c :: acc)
    else if c = '>' then
      if depth - 1 = 0 then some acc.reverse else egcScan rest (depth - 1) (c :: acc)
    else egcScan rest depth (c :: acc)

/-- Skip to the first `<` of the expression (`expr.indexOf("<")`). -/
def egcFindStart : List Char → Option (List Char)
  | [] => none
  | c :: rest => if c = '<' then some rest else egcFindStart rest

/-- `extractGenericContent` of inference.ts: the content between the first `<`
and its depth-matching `>`, or `null`. -/
def extractGenericContent (s : List Char) : Option (List Char) :=
  (egcFindStart s).bind (fun rest => egcScan rest 1 [])

/-- `typeNameToKind` of inference.ts / part_008. -/
def typeNameToKind (name : String) : TypeKind :=
  if name = "Int" then .Int
  else if name = "String" then .String
  else if name = "Bool" then .Bool
  else if name = "List" then .List
  else if name = "MutableMap" then .MutableMap
  else if name = "MutableSet" then .MutableSet
  else if name = "Function" then .Function
  else .Custom

/-- The anchored generic-type head match `^([a-zA-Z_][a-zA-Z0-9_]*)\s*<(.+)>$`
of `parseTypeString`.  Deterministic compilation: the greedy identifier and
whitespace runs cannot backtrack usefully (their follow-sets reject their own
characters), and the `(.+)>$` tail forces the captured group to be everything
strictly before a final `>`, non-empty and newline-free. -/
def genericHeadMatch (s : List Char) : Option (List Char × List Char) :=
  match identMunch s with
  | none => none
  | some (id_, rest) =>
    match (munch jsWs rest).2 with
    | [] => none
    | c :: inner =>
      if c = '<' && inner.getLast? = some '>' then
        let mid := inner.dropLast
        if !mid.isEmpty && mid.all dotChar then some (id_, mid) else none
      else none

/-- Dropping a matched run of characters never lengthens a list. -/
theorem dropWhile_length_le (p : Char → Bool) (l : List Char) :
    (l.dropWhile p).length ≤ l.length := by
  induction l with
  | nil => simp
  | cons c rest ih =>
    by_cases h : p c
    · simp only [List.dropWhile_cons, h, if_pos]
      simp only [List.length_cons]
      omega
    · simp [List.dropWhile_cons, h]

/-- Termination bound for `parseTypeString`: trimming never lengthens. -/
theorem jsTrimL_length_le (s : List Char) : (jsTrimL s).length ≤ s.length := by
  unfold jsTrimL
  calc ((s.dropWhile jsWs).reverse.dropWhile jsWs).reverse.length
      = ((s.dropWhile jsWs).reverse.dropWhile jsWs).length := by
        rw [List.length_reverse]
    _ ≤ (s.dropWhile jsWs).reverse.length := dropWhile_length_le _ _
    _ = (s.dropWhile jsWs).length := by rw [List.length_reverse]
    _ ≤ s.length := dropWhile_length_le _ _

/-- Termination bound for `parseTypeString`: the captured generic-argument
text of `Name<Args>` is at least three characters shorter than the input
(`Name` is non-empty and `<`, `>` are dropped). -/
theorem genericHeadMatch_length_lt {s id_ mid : List Char}
    (h : genericHeadMatch s = some (id_, mid)) : mid.length + 2 < s.length := by
  unfold genericHeadMatch at h
  cases s with
  | nil => simp [identMunch] at h
  | cons c rest =>
    simp only [identMunch] at h
    by_cases hc : identStartChar c
    · simp only [hc, if_true] at h
      rcases hm : (munch jsWs (rest.dropWhile wordChar)).2 with _ | ⟨c2, inner⟩ <;>
        simp only [hm] at h
      · exact absurd h (by simp)
      · have hkey : (c2 :: inner).length ≤ rest.length := by
          have e1 : (munch jsWs (rest.dropWhile wordChar)).2
              = (rest.dropWhile wordChar).dropWhile jsWs := rfl
          rw [e1] at hm
          calc (c2 :: inner).length
              = ((rest.dropWhile wordChar).dropWhile jsWs).length := by rw [hm]
            _ ≤ (rest.dropWhile wordChar).length := dropWhile_length_le _ _
            _ ≤ rest.length := dropWhile_length_le _ _
        by_cases h1 : (c2 = '<' && inner.getLast? = some '>') = true
        · rw [if_pos h1] at h
          by_cases hg2 : (!inner.dropLast.isEmpty && inner.dropLast.all dotChar) = true
          · rw [if_pos hg2] at h
            have hmid : mid = inner.dropLast := by cases h; rfl
            have hinner : inner.length ≥ 1 := by
              rcases inner with _ | ⟨a, b⟩
              · simp at h1
              · simp
            have h5 : mid.length = inner.length - 1 := by
              rw [hmid, List.length_dropLast]
            simp only [List.length_cons] at hkey ⊢
            omega
          · rw [if_neg hg2] at h
            exact absurd h (by simp)
        · rw [if_neg h1] at h
          exact absurd h (by simp)
    · simp [hc] at h

/-- Termination bound for `parseTypeString`: every chunk produced by the
comma splitter is no longer than the accumulated input. -/
theorem pcsAux_mem_length {s cur : List Char} {depth : Int} {acc : List (List Char)}
    {x : List Char} (hx : x ∈ pcsAux s cur depth acc) :
    x ∈ acc ∨ x.length ≤ s.length + cur.length := by
  induction s generalizing cur depth acc with
  | nil =>
    unfold pcsAux at hx
    by_cases he : (jsTrimL cur.reverse).isEmpty
    · simp only [he, if_pos, List.mem_reverse] at hx
      exact Or.inl hx
    · simp only [he, if_neg, Bool.not_eq_true, List.mem_reverse, List.mem_cons] at hx
      rcases hx with h | h
      · right
        have := jsTrimL_length_le cur.reverse
        simp only [List.length_reverse] at this
        subst h; simpa using this
      · exact Or.inl h
  | cons c rest ih =>
    unfold pcsAux at hx
    by_cases h1 : isOpenBracket c
    · simp only [h1, if_pos] at hx
      rcases ih hx with h | h
      · exact Or.inl h
      · right; simp only [List.length_cons] at h ⊢; omega
    · simp only [h1, if_neg, Bool.false_eq_true, not_false_iff] at hx
      by_cases h2 : isCloseBracket c
      · simp only [h2, if_pos] at hx
        rcases ih hx with h | h
        · exact Or.inl h
        · right; simp only [List.length_cons] at h ⊢; omega
      · simp only [h2, if_neg, Bool.false_eq_true, not_false_iff] at hx
        by_cases h3 : (c = ',' && depth = 0) = true
        · simp only [h3, if_pos] at hx
          rcases ih hx with h | h
          · rcases List.mem_cons.mp h with h' | h'
            · right
              have := jsTrimL_length_le cur.reverse
              simp only [List.length_reverse] at this
              subst h'
              simp only [List.length_cons]
              omega
            · exact Or.inl h'
          · right; simp only [List.length_cons, List.length_nil] at h ⊢; omega
        · simp only [h3, if_neg, Bool.false_eq_true, not_false_iff] at hx
          rcases ih hx with h | h
          · exact Or.inl h
          · right; simp only [List.length_cons] at h ⊢; omega

/-- Termination bound for `parseTypeString`, top-level form. -/
theorem parseCommaSeparated_mem_length {s x : List Char}
    (hx : x ∈ parseCommaSeparated s) : x.length ≤ s.length := by
  rcases @pcsAux_mem_length s [] 0 [] x hx with h | h
  · simp at h
  · simpa using h

/-- `parseTypeString` of inference.ts (also `TypeParser.parseTypeString` and
`TypeRegistry.parseTypeString`, which are verbatim copies): trim, try
`Name<Args>` with a recursive comma-split of `Args`, else a simple name.  A
`Custom` kind preserves the written name as `readonlyName`.  The recursion is
on strictly shorter strings (each generic argument sits strictly inside the
angle brackets), witnessed by the bound lemmas above. -/
def parseTypeString (typeStr : List Char) : TypeInfo :=
  match hm : genericHeadMatch (jsTrimL typeStr) with
  | some (baseName, genericsStr) =>
    let generics := (parseCommaSeparated genericsStr).attach.map
      (fun p => parseTypeString p.1)
    let kind := typeNameToKind (String.mk baseName)
    let readonlyName := if kind = .Custom then some (String.mk baseName) else none
    make kind (some generics) readonlyName none
  | none =>
    let trimmed := jsTrimL typeStr
    let kind := typeNameToKind (String.mk trimmed)
    let readonlyName := if kind = .Custom then some (String.mk trimmed) else none
    make kind none readonlyName none
termination_by typeStr.length
decreasing_by
  have h1 := parseCommaSeparated_mem_length p.2
  have h2 := genericHeadMatch_length_lt hm
  have h3 := jsTrimL_length_le typeStr
  omega

/-! ## Expression-level matchers (inferExpressionType of inference.ts) -/

/-- `^".*"$`: the tail after an opening quote — middle characters are `.`
(any non-terminator), the final character is the closing quote. -/
def strLitTail : List Char → Bool
  | [] => false
  | [c] => c = '"'
  | c :: rest => dotChar c && strLitTail rest

/-- The string-literal test `^".*"$` of `inferExpressionType`. -/
def isStringLit : List Char → Bool
  | '"' :: rest => strLitTail rest
  | _ => false

/-- The boolean-literal test `^(true|false)$`. -/
def isBoolLit (s : List Char) : Bool :=
  s = "true".data || s = "false".data

/-- The `\d+(\.\d+)?$` tail of the numeric-literal test. -/
def digitsThenOptFrac (s : List Char) : Bool :=
  let ds := s.takeWhile Char.isDigit
  let rest := s.dropWhile Char.isDigit
  !ds.isEmpty &&
    (rest.isEmpty ||
      (match rest with
       | '.' :: frac => !frac.isEmpty && frac.all Char.isDigit
       | _ => false))

/-- The numeric-literal test `^[+-]?\d+(\.\d+)?$` (decimals also classify as
Int; there is no float kind). -/
def isNumLit : List Char → Bool
  | [] => false
  | c :: rest =>
    if c = '+' || c = '-' then digitsThenOptFrac rest else digitsThenOptFrac (c :: rest)

/-- All splits `s = pre ++ '>' :: post`, shortest `pre` first. -/
def gtSplits : List Char → List (List Char × List Char)
  | [] => []
  | c :: rest =>
    (if c = '>' then [(([] : List Char), rest)] else []) ++
      (gtSplits rest).map (fun p => (c :: p.1, p.2))

/-- Remaining-input candidates for the optional greedy group `(<.+>)?`: when
the input starts with `<`, one candidate per closing `>` (longest bracketed
text first — the greedy preference), followed by the skip-the-group
candidate (input unchanged), which the JS engine tries last. -/
def angleGroupCandidates (s : List Char) : List (List Char) :=
  (match s with
   | '<' :: rest =>
     (((gtSplits rest).reverse.filter (fun p => !p.1.isEmpty && p.1.all dotChar)).map
       (fun p => p.2))
   | _ => []) ++ [s]

/-- `.new(`-tail check shared by the two constructor patterns:
`\s*\.new\s*\(` from the given suffix. -/
def dotNewTail (s : List Char) : Bool :=
  match stripLit ".new".data ((munch jsWs s).2) with
  | none => false
  | some s5 =>
    match (munch jsWs s5).2 with
    | '(' :: _ => true
    | _ => false

/-- `^\s*(List|MutableMap|MutableSet)\s*(<.+>)?\s*\.new\s*\(` of
`inferExpressionType` (only the first capture is used; the generic text is
re-extracted depth-wise by `extractGenericContent`).  The three literal
alternatives are mutually exclusive as prefixes, so alternation order cannot
matter; the optional angle group genuinely backtracks over closing-`>`
positions. -/
def collectionNewMatch (s : List Char) : Option String :=
  let afterWs := (munch jsWs s).2
  ["List", "MutableMap", "MutableSet"].findSome? (fun base =>
    match stripLit base.data afterWs with
    | none => none
    | some s1 =>
      if (angleGroupCandidates ((munch jsWs s1).2)).any dotNewTail then some base
      else none)

/-- Maximal capitalized identifier `[A-Z][a-zA-Z0-9_]*` at the front. -/
def upperIdentMunch : List Char → Option (List Char × List Char)
  | [] => none
  | c :: rest =>
    if c.isUpper then some (c :: rest.takeWhile wordChar, rest.dropWhile wordChar)
    else none

/-- `^\s*([A-Z][a-zA-Z0-9_]*)\s*(<.+>)?\s*\.new\s*\(` of
`inferExpressionType` (user-type constructor). -/
def customNewMatch (s : List Char) : Option String :=
  match upperIdentMunch ((munch jsWs s).2) with
  | none => none
  | some (nm, s1) =>
    if (angleGroupCandidates ((munch jsWs s1).2)).any dotNewTail then
      some (String.mk nm)
    else none

/-- `^([a-zA-Z_][a-zA-Z0-9_]*)\s*\(` of `inferExpressionType`
(function-call head). -/
def funcCallMatch (s : List Char) : Option String :=
  match identMunch s with
  | none => none
  | some (nm, rest) =>
    match (munch jsWs rest).2 with
    | '(' :: _ => some (String.mk nm)
    | _ => none

/-- `^[a-zA-Z_][a-zA-Z0-9_]*(\(.*\))?$` of `inferExpressionType`
(bare identifier, optionally with a trailing argument list). -/
def identifierLike (s : List Char) : Bool :=
  match identMunch s with
  | none => false
  | some (_, rest) =>
    rest.isEmpty ||
      (match rest with
       | '(' :: tail =>
         (match tail.getLast? with
          | some c => c = ')' && tail.dropLast.all dotChar
          | none => false)
       | _ => false)

/-- The bare-identifier fallback at the end of `inferExpressionType`: a known
name yields its current map entry, an unknown one yields `Unit`; anything
that is not even identifier-shaped yields `Unknown`. -/
def identFallback (types : TMap) (expr : List Char) : TypeInfo :=
  if identifierLike expr then
    match tget types (String.mk expr) with
    | some existingType => existingType
    | none => make .Unit none none none
  else make .Unknown none none none

/-- `inferExpressionType` of inference.ts, with the engine's two maps passed
explicitly (`frt` = `functionReturnTypes`, `types` = `types`).  The branch
order is the source's: string → bool → numeric → collection constructor →
user constructor → known function call (an unknown callee falls through) →
identifier lookup → `Unknown`. -/
def inferExpressionType (frt types : TMap) (expr : List Char) : TypeInfo :=
  if isStringLit expr then make .String none none none
  else if isBoolLit expr then make .Bool none none none
  else if isNumLit expr then make .Int none none none
  else
    match collectionNewMatch expr with
    | some typeName =>
      let kind := typeNameToKind typeName
      (match extractGenericContent expr with
       | some genericContent =>
         make kind (some ((parseCommaSeparated genericContent).map parseTypeString)) none none
       | none =>
         match kind with
         | .List => make .List (some [make .Unknown none none none]) none none
         | .MutableSet => make .MutableSet (some [make .Unknown none none none]) none none
         | .MutableMap =>
           make .MutableMap
             (some [make .Unknown none none none, make .Unknown none none none]) none none
         | _ => make kind none none none)
    | none =>
      match customNewMatch expr with
      | some typeName =>
        (match extractGenericContent expr with
         | some genericContent =>
           make .Custom (some ((parseCommaSeparated genericContent).map parseTypeString))
             (some typeName) none
         | none => make .Custom none (some typeName) none)
      | none =>
        match funcCallMatch expr with
        | some funcName =>
          (match tget frt funcName with
           | some returnType => returnType
           | none => identFallback types expr)
        | none => identFallback types expr

/-! ## Declaration scanning (scanDeclarationsWithoutInit / scanInitializers) -/

/-- The `\s*([^=]+)$` tail of the no-initializer declaration pattern: the rest
must be non-empty and `=`-free; the capture drops the leading whitespace
(greedy `\s*`), except that on an all-whitespace rest backtracking concedes
the final character to `[^=]+`. -/
def annotationCapture (rest : List Char) : Option (List Char) :=
  if rest.isEmpty || rest.any (fun c => c = '=') then none
  else
    let cap := rest.dropWhile jsWs
    if cap.isEmpty then some (rest.reverse.take 1) else some cap

/-- One position of `\b(?:var|val)\s+([a-zA-Z_][a-zA-Z0-9_]*)\s*:\s*([^=]+)$`
(`scanDeclarationsWithoutInit`).  The `var`/`val` literals are mutually
exclusive; each greedy run is followed by a character outside its class, so
the compilation is deterministic. -/
def declNoInitAt (prev : Option Char) (s : List Char) : Option (String × List Char) :=
  if boundaryBefore prev then
    match (stripLit "var".data s) <|> (stripLit "val".data s) with
    | some s1 =>
      (match s1 with
       | c :: _ =>
         if jsWs c then
           match identMunch ((munch jsWs s1).2) with
           | some (nm, s3) =>
             (match (munch jsWs s3).2 with
              | ':' :: s4 => (annotationCapture s4).map (fun ann => (String.mk nm, ann))
              | _ => none)
           | none => none
         else none
       | [] => none)
    | none => none
  else none

/-- The `=\s*(.+)$`-style right-hand-side tail, anchored variant: after
optional whitespace and the `=`, the greedy capture is the rest minus its
leading whitespace (with the one-character backtracking concession on an
all-whitespace rest).  Exact for line input, which contains no terminators. -/
def eqRhsTail (s : List Char) : Option (List Char) :=
  match (munch jsWs s).2 with
  | '=' :: s2 =>
    let rhs := s2.dropWhile jsWs
    if rhs.isEmpty then
      (if s2.isEmpty then none else some (s2.reverse.take 1))
    else if rhs.all dotChar then some rhs else none
  | _ => none

/-- As `eqRhsTail` but for the unanchored `=\s*(.+)` of `scanBinaryOps`: the
greedy capture is the maximal dot-run. -/
def eqRhsTailNoAnchor (s : List Char) : Option (List Char) :=
  match (munch jsWs s).2 with
  | '=' :: s2 =>
    let afterWs := s2.dropWhile jsWs
    let cap := afterWs.takeWhile dotChar
    if cap.isEmpty then
      (if s2.isEmpty then none else some (s2.reverse.take 1))
    else some cap
  | _ => none

/-- The colon alternative of the optional annotation group of the initializer
pattern: `:\s*(.+?)` followed by `\s*=\s*(.+)$`, compiled with the JS
backtracking order (leading whitespace longest first, lazy capture shortest
first). -/
def initAnnotatedPath (s5 : List Char) : Option (List Char × List Char) :=
  (splitsGreedy jsWs s5).findSome? (fun p =>
    (splitsPlusLazy dotChar p.2).findSome? (fun q =>
      (eqRhsTail q.2).map (fun rhs => (q.1, rhs))))

/-- One position of
`\b(?:var|val)\s+([a-zA-Z_][a-zA-Z0-9_]*)\s*(?::\s*(.+?))?\s*=\s*(.+)$`
(`scanInitializers`): name, optional raw annotation, raw right-hand side.
The optional group is greedy, so the colon alternative is tried before the
annotation-free one. -/
def initDeclAt (prev : Option Char) (s : List Char) :
    Option (String × Option (List Char) × List Char) :=
  if boundaryBefore prev then
    match (stripLit "var".data s) <|> (stripLit "val".data s) with
    | some s1 =>
      (match s1 with
       | c :: _ =>
         if jsWs c then
           match identMunch ((munch jsWs s1).2) with
           | some (nm, s3) =>
             let s4 := (munch jsWs s3).2
             let viaColon : Option (Option (List Char) × List Char) :=
               match s4 with
               | ':' :: s5 => (initAnnotatedPath s5).map (fun p => (some p.1, p.2))
               | _ => none
             (match viaColon <|> ((eqRhsTail s4).map
                 (fun rhs => ((none : Option (List Char)), rhs))) with
              | some (ann, rhs) => some (String.mk nm, ann, rhs)
              | none => none)
           | none => none
         else none
       | [] => none)
    | none => none
  else none

/-- One line of `scanDeclarationsWithoutInit`: trim, match, record the parsed
annotation with its explicit-annotation flag set. -/
def scanDeclsNoInitLine (types : TMap) (raw : List Char) : TMap :=
  match matchFirst declNoInitAt (jsTrimL raw) with
  | none => types
  | some (name, ann) => tset types name (setAnnotated (parseTypeString (jsTrimL ann)))

/-- `scanDeclarationsWithoutInit` of inference.ts. -/
def scanDeclarationsWithoutInit (lines : List (List Char)) (types : TMap) : TMap :=
  lines.foldl scanDeclsNoInitLine types

/-- One line of `scanInitializers`: an annotated declaration records the
parsed annotation (flag set); an unannotated one records the type inferred
from the trimmed right-hand side. -/
def scanInitializersLine (frt : TMap) (types : TMap) (raw : List Char) : TMap :=
  match matchFirst initDeclAt (jsTrimL raw) with
  | none => types
  | some (name, annOpt, rhsRaw) =>
    match annOpt with
    | some ann => tset types name (setAnnotated (parseTypeString ann))
    | none => tset types name (inferExpressionType frt types (jsTrimL rhsRaw))

/-- `scanInitializers` of inference.ts. -/
def scanInitializers (frt : TMap) (lines : List (List Char)) (types : TMap) : TMap :=
  lines.foldl (scanInitializersLine frt) types

/-- `scanAssignments` of inference.ts: a deliberate no-op — types are never
backfilled from plain reassignment statements (the body is all comments in
the source). -/
def scanAssignments (_lines : List (List Char)) (types : TMap) : TMap :=
  types

/-! ## Collection usage scanning (parseMethodCall, mergeTypes, add/put) -/

/-- The result record of `parseMethodCall`. -/
structure MethodCall where
  object : String
  method : String
  args : List (List Char)
deriving Repr

/-- One position of the leftmost
`([a-zA-Z_][a-zA-Z0-9_]*)\.([a-zA-Z_][a-zA-Z0-9_]*)\s*\(` match of
`parseMethodCall`: object, method, and the suffix just after the opening
parenthesis. -/
def methodHeadAt (_prev : Option Char) (s : List Char) :
    Option (String × String × List Char) :=
  match identMunch s with
  | none => none
  | some (obj, r1) =>
    match r1 with
    | '.' :: r2 =>
      (match identMunch r2 with
       | none => none
       | some (mth, r3) =>
         match (munch jsWs r3).2 with
         | '(' :: r4 => some (String.mk obj, String.mk mth, r4)
         | _ => none)
    | _ => none

/-- The manual argument scan of `parseMethodCall`: from depth 1 just after
the opening parenthesis, include each character after which the depth is
still positive (`endIndex = i + 1`), stopping once the depth reaches zero. -/
def argsScan : List Char → Int → List Char → List Char
  | [], _, acc => acc.reverse
  | c :: rest, depth, acc =>
    let depth' := if c = '(' then depth + 1 else if c = ')' then depth - 1 else depth
    if depth' > 0 then argsScan rest depth' (c :: acc)
    else acc.reverse

/-- `parseMethodCall` of inference.ts. -/
def parseMethodCall (line : List Char) : Option MethodCall :=
  match matchFirst methodHeadAt line with
  | none => none
  | some (obj, mth, afterParen) =>
    some ⟨obj, mth, parseCommaSeparated (argsScan afterParen 1 [])⟩

mutual
/-- `checkContainsUnknown` of inference.ts: the descriptor or any nested
generic has kind `Unknown`. -/
def checkContainsUnknown : TypeInfo → Bool
  | .mk k g _ _ =>
    k == .Unknown ||
      (match g with
       | none => false
       | some gs => checkListContainsUnknown gs)

/-- The generic-list loop of `checkContainsUnknown`. -/
def checkListContainsUnknown : List TypeInfo → Bool
  | [] => false
  | t0 :: ts => checkContainsUnknown t0 || checkListContainsUnknown ts
end

mutual
/-- `mergeTypes` of inference.ts (verbatim also in part_010's
`CollectionInference.mergeTypes`): same kind merges generics pairwise when
both lists are present with equal length (dropping name and flag), otherwise
keeps `a`; an `Unknown` side yields the other side; a mismatch of two known
kinds keeps `a`. -/
def mergeTypes : TypeInfo → TypeInfo → TypeInfo
  | .mk ka ga na ha, .mk kb gb nb hb =>
    if ka = kb then
      match ga, gb with
      | some gas, some gbs =>
        if gas.length = gbs.length then .mk ka (some (mergeGenerics gas gbs)) none none
        else .mk ka ga na ha
      | _, _ => .mk ka ga na ha
    else if ka = .Unknown then .mk kb gb nb hb
    else if kb = .Unknown then .mk ka ga na ha
    else .mk ka ga na ha

/-- The pairwise `map`/index merge over equal-length generic lists. -/
def mergeGenerics : List TypeInfo → List TypeInfo → List TypeInfo
  | [], _ => []
  | _ :: _, [] => []
  | a :: as_, b :: bs => mergeTypes a b :: mergeGenerics as_ bs
end

/-- `existing.generics?.[0] ?? make("Unknown")`. -/
def genericAt0 (ti : TypeInfo) : TypeInfo :=
  match ti.generics with
  | some (g :: _) => g
  | _ => make .Unknown none none none

/-- `existing.generics?.[1] ?? make("Unknown")` (value slot of a map). -/
def genericAt1 (ti : TypeInfo) : TypeInfo :=
  match ti.generics with
  | some (_ :: g :: _) => g
  | _ => make .Unknown none none none

/-- `mergeCollectionElementType` of inference.ts: merge the element type into
an entry already known to be `MutableSet` or `List`; otherwise (absent,
`Unknown`, or any other kind) leave the map untouched — `add` alone cannot
disambiguate the collection kind. -/
def mergeCollectionElementType (types : TMap) (collectionName : String)
    (elemType : TypeInfo) : TMap :=
  match tget types collectionName with
  | some existing =>
    if existing.kind = .MutableSet then
      tset types collectionName
        (make .MutableSet (some [mergeTypes (genericAt0 existing) elemType]) none none)
    else if existing.kind = .List then
      tset types collectionName
        (make .List (some [mergeTypes (genericAt0 existing) elemType]) none none)
    else types
  | none => types

/-- `mergeMapTypes` of inference.ts: `put` is unambiguous, so an absent or
`Unknown`-containing entry is (re)created as a `MutableMap`; an existing
`MutableMap` merges both slots; any other kind is left untouched. -/
def mergeMapTypes (types : TMap) (mapName : String) (keyType valType : TypeInfo) : TMap :=
  match tget types mapName with
  | none => tset types mapName (make .MutableMap (some [keyType, valType]) none none)
  | some existing =>
    if checkContainsUnknown existing then
      tset types mapName (make .MutableMap (some [keyType, valType]) none none)
    else if existing.kind = .MutableMap then
      tset types mapName
        (make .MutableMap
          (some [mergeTypes (genericAt0 existing) keyType,
                 mergeTypes (genericAt1 existing) valType]) none none)
    else types

/-- One line of `scanCollectionUsages`: trim, parse the method call, and
dispatch on `add`/`put` with the exact arity checks. -/
def scanCollectionLine (frt : TMap) (types : TMap) (raw : List Char) : TMap :=
  match parseMethodCall (jsTrimL raw) with
  | none => types
  | some call =>
    if call.method = "add" then
      match call.args with
      | [a0] => mergeCollectionElementType types call.object (inferExpressionType frt types a0)
      | _ => types
    else if call.method = "put" then
      match call.args with
      | [a0, a1] =>
        mergeMapTypes types call.object (inferExpressionType frt types a0)
          (inferExpressionType frt types a1)
      | _ => types
    else types

/-- `scanCollectionUsages` of inference.ts. -/
def scanCollectionUsages (frt : TMap) (lines : List (List Char)) (types : TMap) : TMap :=
  lines.foldl (scanCollectionLine frt) types

/-! ## Binary-operation scanning (scanBinaryOps of inference.ts) -/

/-- The four operator characters of `[+\-*/]`. -/
def isOpChar (c : Char) : Bool :=
  c = '+' || c = '-' || c = '*' || c = '/'

/-- The character loop of `tokenizeExpression`: split on operators, keeping
them as their own tokens, except that a `+`/`-` at the start or right after
another operator (with only whitespace pending) is glued onto the next
operand as a sign. -/
def tokenizeAux : List Char → List String → List Char → List String
  | [], tokens, cur =>
    let t0 := jsTrimL cur.reverse
    if t0.isEmpty then tokens else tokens ++ [String.mk t0]
  | c :: rest, tokens, cur =>
    if isOpChar c then
      let lastToken := tokens.getLast?
      let isUnaryAtStart := (c = '+' || c = '-') && tokens.isEmpty && (jsTrimL cur.reverse).isEmpty
      let isUnaryAfterOp := (c = '+' || c = '-') &&
        (lastToken == some "+" || lastToken == some "-" ||
          lastToken == some "*" || lastToken == some "/") &&
        (jsTrimL cur.reverse).isEmpty
      if isUnaryAtStart || isUnaryAfterOp then
        tokenizeAux rest tokens (c :: cur)
      else
        let pushed := jsTrimL cur.reverse
        let tokens' := if pushed.isEmpty then tokens else tokens ++ [String.mk pushed]
        tokenizeAux rest (tokens' ++ [String.mk [c]]) []
    else
      tokenizeAux rest tokens (c :: cur)

/-- `tokenizeExpression` of inference.ts. -/
def tokenizeExpression (expr : List Char) : List String :=
  tokenizeAux expr [] []

/-- `inferOperandType` of inference.ts: numeric → Int, string literal →
String, boolean → Bool, otherwise the current map entry or `Unknown`. -/
def inferOperandType (types : TMap) (operand : String) : TypeInfo :=
  if isNumLit operand.data then make .Int none none none
  else if isStringLit operand.data then make .String none none none
  else if isBoolLit operand.data then make .Bool none none none
  else (tget types operand).getD (make .Unknown none none none)

/-- `inferBinaryOperationType` of inference.ts: mismatched kinds → Unknown;
Int supports all four operators; String supports only `+`; everything else →
Unknown. -/
def inferBinaryOperationType (leftType : TypeInfo) (operator : String)
    (rightType : TypeInfo) : TypeInfo :=
  if leftType.kind ≠ rightType.kind then make .Unknown none none none
  else if leftType.kind = .Int then make .Int none none none
  else if leftType.kind = .String then
    (if operator = "+" then make .String none none none else make .Unknown none none none)
  else make .Unknown none none none

/-- The left-to-right pair fold of `inferBinaryExpressionType` (index loop
`i += 2`), with the early return once the accumulator becomes `Unknown` and
the break on a trailing operator. -/
def foldBinary (types : TMap) : TypeInfo → List String → TypeInfo
  | acc, [] => acc
  | acc, [_] => acc
  | acc, op :: rhs :: rest =>
    let res := inferBinaryOperationType acc op (inferOperandType types rhs)
    if res.kind = .Unknown then res else foldBinary types res rest

/-- `inferBinaryExpressionType` of inference.ts (`null` on an empty token
list). -/
def inferBinaryExpressionType (types : TMap) (expr : List Char) : Option TypeInfo :=
  match tokenizeExpression expr with
  | [] => none
  | [t0] => some (inferOperandType types t0)
  | t0 :: rest => some (foldBinary types (inferOperandType types t0) rest)

/-- One position of `\b(?:var|val)\s+([a-zA-Z_][a-zA-Z0-9_]*)\s*=\s*(.+)` of
`scanBinaryOps` (no annotation group, no end anchor). -/
def assignAt (prev : Option Char) (s : List Char) : Option (String × List Char) :=
  if boundaryBefore prev then
    match (stripLit "var".data s) <|> (stripLit "val".data s) with
    | some s1 =>
      (match s1 with
       | c :: _ =>
         if jsWs c then
           match identMunch ((munch jsWs s1).2) with
           | some (nm, s3) =>
             (eqRhsTailNoAnchor ((munch jsWs s3).2)).map (fun rhs => (String.mk nm, rhs))
           | none => none
         else none
       | [] => none)
    | none => none
  else none

/-- One line of `scanBinaryOps`: match the assignment, require an operator
character in the trimmed expression, fold the tokens, and overwrite the entry
only when it is absent or contains `Unknown` somewhere. -/
def scanBinaryOpsLine (types : TMap) (raw : List Char) : TMap :=
  match matchFirst assignAt (jsTrimL raw) with
  | none => types
  | some (varName, rhsRaw) =>
    let expr := jsTrimL rhsRaw
    if !expr.any isOpChar then types
    else
      match inferBinaryExpressionType types expr with
      | none => types
      | some resultType =>
        match tget types varName with
        | none => tset types varName resultType
        | some existingType =>
          if checkContainsUnknown existingType then tset types varName resultType
          else types

/-- `scanBinaryOps` of inference.ts. -/
def scanBinaryOps (lines : List (List Char)) (types : TMap) : TMap :=
  lines.foldl scanBinaryOpsLine types

/-! ## AST nodes and the AST passes of the engine -/

/-- The node kinds of ast.ts: `program`, `class`, `actor`, `function`,
`block`, `variable` (suffixed names avoid Lean keywords). -/
inductive NodeKind where
  | program | classDecl | actorDecl | functionDecl | blockStmt | varDecl
deriving DecidableEq, Repr

/-- An AST node of ast.ts: kind, name, declaration line, span, children.  The
non-owning parent back-reference is omitted (it is a traversal aid never read
by the embedded operations). -/
inductive ASTNode where
  | mk (kind : NodeKind) (name : String) (line : Nat) (startLine : Nat) (endLine : Nat)
       (children : List ASTNode) : ASTNode
deriving Repr

/-- Field accessor: node kind. -/
def ASTNode.kind : ASTNode → NodeKind
  | .mk k _ _ _ _ _ => k

/-- Field accessor: node name. -/
def ASTNode.name : ASTNode → String
  | .mk _ n _ _ _ _ => n

/-- Field accessor: declaration line. -/
def ASTNode.line : ASTNode → Nat
  | .mk _ _ l _ _ _ => l

/-- Field accessor: span start. -/
def ASTNode.startLine : ASTNode → Nat
  | .mk _ _ _ s _ _ => s

/-- Field accessor: span end. -/
def ASTNode.endLine : ASTNode → Nat
  | .mk _ _ _ _ e _ => e

/-- Field accessor: children. -/
def ASTNode.children : ASTNode → List ASTNode
  | .mk _ _ _ _ _ cs => cs

mutual
/-- `collectDeclarationsFromAST` of inference.ts: seed every `variable`
node's name as `Unknown` unless already present.  The source walks the tree
with an explicit stack (pop a node, handle it, push its children), which
handles a node before its subtree and later siblings before earlier ones;
`seedList` therefore applies the tail of the child list first, so the final
map is identical write for write. -/
def seedNode : ASTNode → TMap → TMap
  | .mk k nm _ _ _ cs, m =>
    seedList cs
      (if k = .varDecl && !(thas m nm) then tset m nm (make .Unknown none none none) else m)

/-- Stack-order traversal of a child list for `seedNode`. -/
def seedList : List ASTNode → TMap → TMap
  | [], m => m
  | c :: cs, m => seedNode c (seedList cs m)
end

/-- `lines[i]` (always in range at every reachable call). -/
def lineAt (lines : List (List Char)) (i : Nat) : List Char :=
  lines.getD i []

/-- The `\s*(.+?)\s*\{?$` tail of the function-return-type pattern: the lazy
capture leaves the longest suffix of the form  whitespace* optional-final-
brace; an all-whitespace or all-suffix rest concedes a single character.
Exact for terminator-free line input. -/
def funRetCapture (s6 : List Char) : Option (List Char) :=
  let core := s6.dropWhile jsWs
  if core.isEmpty then
    (if s6.isEmpty then none else some (s6.reverse.take 1))
  else
    let rev := core.reverse
    let sufLen :=
      match rev with
      | c :: revRest => if c = braceL then 1 + (revRest.takeWhile jsWs).length
                        else (rev.takeWhile jsWs).length
      | [] => 0
    if sufLen = core.length then some (core.take 1)
    else some (core.take (core.length - sufLen))

/-- One position of
`fun\s+[a-zA-Z_][a-zA-Z0-9_]*\s*\(([^)]*)\)\s*:\s*(.+?)\s*\{?$`
(`parseFunctionReturnType` of inference.ts, the §4.7 colon-style pass),
returning the raw return-type capture. -/
def funReturnAt (_prev : Option Char) (s : List Char) : Option (List Char) :=
  match stripLit "fun".data s with
  | none => none
  | some s1 =>
    match s1 with
    | c :: _ =>
      if jsWs c then
        match identMunch ((munch jsWs s1).2) with
        | some (_, s3) =>
          (match (munch jsWs s3).2 with
           | '(' :: s4 =>
             (match s4.dropWhile (fun ch => ch ≠ ')') with
              | ')' :: s5 =>
                (match (munch jsWs s5).2 with
                 | ':' :: s6 => funRetCapture ((munch jsWs s6).2)
                 | _ => none)
              | _ => none)
           | _ => none)
        | none => none
      else none
    | [] => none

/-- `parseFunctionReturnType` of inference.ts: bounds-check the node line,
trim it, match the colon-style signature, and parse the trimmed capture. -/
def parseFunctionReturnType (lines : List (List Char)) (nodeLine : Nat) : Option TypeInfo :=
  if nodeLine < lines.length then
    match matchFirst funReturnAt (jsTrimL (lineAt lines nodeLine)) with
    | some cap => some (parseTypeString (jsTrimL cap))
    | none => none
  else none

mutual
/-- `collectFunctionReturnTypes` of inference.ts: for every `function` node
whose line matches the colon-style signature, record its return type under
the node's name (same stack traversal order as `seedNode`). -/
def cfrtNode (lines : List (List Char)) : ASTNode → TMap → TMap
  | .mk k nm ln _ _ cs, frt =>
    cfrtList lines cs
      (if k = .functionDecl then
        (match parseFunctionReturnType lines ln with
         | some rt => tset frt nm rt
         | none => frt)
       else frt)

/-- Stack-order traversal of a child list for `cfrtNode`. -/
def cfrtList (lines : List (List Char)) : List ASTNode → TMap → TMap
  | [], frt => frt
  | c :: cs, frt => cfrtNode lines c (cfrtList lines cs frt)
end

/-- `InferenceEngine.inferFromText`: reset both maps, split the text on
`/\r?\n/`, and run the passes in the source's order.  This Lean function is
total by construction, which is the never-throws half of the §7 contract. -/
def inferFromText (text : String) (ast : ASTNode) : TMap :=
  let lines := splitLinesCRLF text.data
  let types0 := seedNode ast TMap.empty
  let frt := cfrtNode lines ast TMap.empty
  let types1 := scanDeclarationsWithoutInit lines types0
  let types2 := scanInitializers frt lines types1
  let types3 := scanAssignments lines types2
  let types4 := scanCollectionUsages frt lines types3
  scanBinaryOps lines types4

/-! ## The block parser (Parser of part_004) -/

/-- One position of `\bclass\s+([a-zA-Z_][a-zA-Z0-9_]*)` /
`\bactor\s+(...)`: keyword with a word boundary, whitespace, identifier. -/
def keywordNameAt (kw : List Char) (prev : Option Char) (s : List Char) : Option String :=
  if boundaryBefore prev then
    match stripLit kw s with
    | some s1 =>
      (match s1 with
       | c :: _ =>
         if jsWs c then
           match identMunch ((munch jsWs s1).2) with
           | some (nm, _) => some (String.mk nm)
           | none => none
         else none
       | [] => none)
    | none => none
  else none

/-- The `fun\s+([a-zA-Z_][a-zA-Z0-9_]*)` core of the parser's function
pattern. -/
def funCore (s : List Char) : Option String :=
  match stripLit "fun".data s with
  | some s1 =>
    (match s1 with
     | c :: _ =>
       if jsWs c then
         match identMunch ((munch jsWs s1).2) with
         | some (nm, _) => some (String.mk nm)
         | none => none
       else none
     | [] => none)
  | none => none

/-- One position of `(?:io\s+)?fun\s+([a-zA-Z_][a-zA-Z0-9_]*)` (no word
boundary in the source pattern): the greedy optional `io` prefix is tried
first, then the bare `fun` at the same position. -/
def parserFunAt (_prev : Option Char) (s : List Char) : Option String :=
  (match stripLit "io".data s with
   | some s1 =>
     (match s1 with
      | c :: _ => if jsWs c then funCore ((munch jsWs s1).2) else none
      | [] => none)
   | none => none) <|> funCore s

/-- One position of `\b(var|val)\s+([a-zA-Z_][a-zA-Z0-9_]*)` (the parser's
variable pattern; the name is the second capture). -/
def parserVarAt (prev : Option Char) (s : List Char) : Option String :=
  if boundaryBefore prev then
    match (stripLit "var".data s) <|> (stripLit "val".data s) with
    | some s1 =>
      (match s1 with
       | c :: _ =>
         if jsWs c then
           match identMunch ((munch jsWs s1).2) with
           | some (nm, _) => some (String.mk nm)
           | none => none
         else none
       | [] => none)
    | none => none
  else none

/-- The `while`/`if`/`else`/`for` substring test that opens a nested block. -/
def hasBlockKeyword (line : List Char) : Bool :=
  includesL "while".data line || includesL "if".data line ||
    includesL "else".data line || includesL "for".data line

/-- The inner character loop of `findBlockEnd` over one line: `none` means
the brace count returned to zero after a seen `{` (return this line index),
`some (count, foundStart)` carries the state to the next line. -/
def scanBraceLine : List Char → Int → Bool → Option (Int × Bool)
  | [], c, f => some (c, f)
  | ch :: rest, c, f =>
    if ch = braceL then scanBraceLine rest (c + 1) true
    else if ch = braceR then
      (if f && (c - 1 == 0) then none else scanBraceLine rest (c - 1) f)
    else scanBraceLine rest c f

/-- The line loop of `findBlockEnd`; `fuel = lines.length - i` at every call,
so exhaustion is exactly the loop running past the last line, which returns
`lines.length - 1` (unterminated-block recovery). -/
def findBlockEndAux (lines : List (List Char)) : Nat → Nat → Int → Bool → Nat
  | 0, _, _, _ => lines.length - 1
  | fuel + 1, i, c, f =>
    match scanBraceLine (lineAt lines i) c f with
    | none => i
    | some (c', f') => findBlockEndAux lines fuel (i + 1) c' f'

/-- `Parser.findBlockEnd` of part_004. -/
def findBlockEnd (lines : List (List Char)) (startLine : Nat) : Nat :=
  findBlockEndAux lines (lines.length - startLine) startLine 0 false

/-- `Parser.parseBlockContent` of part_004, compiled with a structural
counter: `fuel = lines.length - i` at every call, and the `i = blockEnd`
jump becomes a `skip` bound under which line indices are passed over one by
one.  Branch order is the source's: function, then variable, then the
block-keyword substring test. -/
def parseBlockLoop (lines : List (List Char)) : Nat → Nat → Nat → Nat → List ASTNode
  | 0, _, _, _ => []
  | fuel + 1, i, e, skip =>
    if i > e then []
    else if i < skip then parseBlockLoop lines fuel (i + 1) e skip
    else
      let line := lineAt lines i
      match matchFirst parserFunAt line with
      | some nm =>
        let be := findBlockEnd lines i
        ASTNode.mk .functionDecl nm i i be (parseBlockLoop lines fuel (i + 1) be 0)
          :: parseBlockLoop lines fuel (i + 1) e (be + 1)
      | none =>
        match matchFirst parserVarAt line with
        | some nm =>
          ASTNode.mk .varDecl nm i i i [] :: parseBlockLoop lines fuel (i + 1) e skip
        | none =>
          if hasBlockKeyword line then
            let be := findBlockEnd lines i
            ASTNode.mk .blockStmt ("block_" ++ toString i) i i be
                (parseBlockLoop lines fuel (i + 1) be 0)
              :: parseBlockLoop lines fuel (i + 1) e (be + 1)
          else parseBlockLoop lines fuel (i + 1) e skip

/-- `Parser.parseTopLevel` of part_004 (same fuel/skip compilation): `class`
is a leaf (no body parse), `actor` recurses into its block. -/
def parseTopLevelLoop (lines : List (List Char)) : Nat → Nat → Nat → Nat → List ASTNode
  | 0, _, _, _ => []
  | fuel + 1, i, e, skip =>
    if i > e then []
    else if i < skip then parseTopLevelLoop lines fuel (i + 1) e skip
    else
      let line := lineAt lines i
      match matchFirst (keywordNameAt "class".data) line with
      | some nm =>
        ASTNode.mk .classDecl nm i i i [] :: parseTopLevelLoop lines fuel (i + 1) e skip
      | none =>
        match matchFirst (keywordNameAt "actor".data) line with
        | some nm =>
          let be := findBlockEnd lines i
          ASTNode.mk .actorDecl nm i i be (parseBlockLoop lines fuel (i + 1) be 0)
            :: parseTopLevelLoop lines fuel (i + 1) e (be + 1)
        | none => parseTopLevelLoop lines fuel (i + 1) e skip

/-- `Parser.parse` of part_004: the program root spans line 0 to
`lines.length - 1` and owns the top-level nodes. -/
def parse (text : String) : ASTNode :=
  let lines := splitLinesLF text.data
  .mk .program "root" 0 0 (lines.length - 1)
    (parseTopLevelLoop lines lines.length 0 (lines.length - 1) 0)

/-! ## The scope resolver (ScopeResolver of part_006) -/

/-- The `vscode.CompletionItemKind` values used by the resolver
(Variable / Function / Class). -/
inductive SymbolKind where
  | variableSym | functionSym | classSym
deriving DecidableEq, Repr

/-- `SymbolInfo` of ast.ts: name, kind, declaration line, owning node. -/
structure SymbolInfo where
  name : String
  kind : SymbolKind
  line : Nat
  node : ASTNode
deriving Repr

/-- The per-child symbol pushed by `collectVisibleSymbols`: a variable only
when `line >= child.line`, a function unconditionally, a class/actor
unconditionally, anything else (nested blocks) nothing. -/
def symbolEntryFor (child : ASTNode) (line : Nat) : List SymbolInfo :=
  if child.kind = .varDecl then
    (if child.line ≤ line then [⟨child.name, .variableSym, child.line, child⟩] else [])
  else if child.kind = .functionDecl then
    [⟨child.name, .functionSym, child.line, child⟩]
  else if child.kind = .classDecl || child.kind = .actorDecl then
    [⟨child.name, .classSym, child.line, child⟩]
  else []

mutual
/-- `collectVisibleSymbols` of part_006: skip a node whose span does not
contain the line; otherwise, for each child push its entry and recurse. -/
def collectVisibleSymbols : ASTNode → Nat → List SymbolInfo
  | .mk _ _ _ sl el cs, line =>
    if line < sl || el < line then [] else collectVisibleChildren cs line

/-- The child loop of `collectVisibleSymbols` (entry, then subtree, in
order). -/
def collectVisibleChildren : List ASTNode → Nat → List SymbolInfo
  | [], _ => []
  | c :: cs, line =>
    symbolEntryFor c line ++ collectVisibleSymbols c line ++ collectVisibleChildren cs line
end

/-- `ScopeResolver.getSymbolsAtLine` of part_006. -/
def getSymbolsAtLine (ast : ASTNode) (line : Nat) : List SymbolInfo :=
  collectVisibleSymbols ast line

mutual
/-- The names of all `variable`-kind nodes of a tree (the coverage domain of
the §7 claim about `inferTypes`). -/
def varNames : ASTNode → List String
  | .mk k nm _ _ _ cs => (if k = .varDecl then [nm] else []) ++ varNamesList cs

/-- `varNames` over a child list. -/
def varNamesList : List ASTNode → List String
  | [] => []
  | c :: cs => varNames c ++ varNamesList cs
end

/-! ## The type registry (TypeRegistry of part_008) -/

/-- The `t` helper of part_008 (`hasTypeAnnotation` is never set there). -/
def t (kind : TypeKind) (generics : Option (List TypeInfo)) (readonlyName : Option String) :
    TypeInfo :=
  .mk kind generics readonlyName none

/-- The `generic` helper of part_008: a placeholder such as `T`, `K`, `V`. -/
def generic (name : String) : TypeInfo :=
  .mk .Unknown none (some name) none

/-- `ParamInfo` of part_008. -/
structure ParamInfo where
  name : String
  type : TypeInfo
deriving Repr

/-- `MethodInfo` of part_008 (the source's `documentation` field is called
`docs` here). -/
structure MethodInfo where
  name : String
  returnType : TypeInfo
  params : List ParamInfo
  docs : Option String
deriving Repr

/-- `FieldInfo` of part_008 (`mutable`: `var` = true, `val` = false). -/
structure FieldInfo where
  name : String
  type : TypeInfo
  mutable : Bool
deriving Repr

/-- `TypeDefinition` of part_008. -/
structure TypeDefinition where
  kind : TypeKind
  name : String
  genericParams : Option (List String)
  methods : List MethodInfo
  fields : List FieldInfo
deriving Repr

/-- Name → definition map (JS `Map` with string keys, as for `TMap`). -/
abbrev TDMap := List (String × TypeDefinition)

/-- `map.set` for definition maps. -/
def tdset : TDMap → String → TypeDefinition → TDMap
  | [], k, v => [(k, v)]
  | (k', v') :: rest, k, v =>
    if k' = k then (k', v) :: rest else (k', v') :: tdset rest k v

/-- `map.get` for definition maps. -/
def tdget : TDMap → String → Option TypeDefinition
  | [], _ => none
  | (k', v') :: rest, k => if k' = k then some v' else tdget rest k

/-- The `Int` entry of `initBuiltinTypes`. -/
def intTypeDef : TypeDefinition :=
  ⟨.Int, "Int", none,
   [⟨"toString", t .String none none, [], some "Convert to string"⟩,
    ⟨"abs", t .Int none none, [], some "Absolute value"⟩],
   []⟩

/-- The `String` entry of `initBuiltinTypes`. -/
def stringTypeDef : TypeDefinition :=
  ⟨.String, "String", none,
   [⟨"length", t .Int none none, [], some "Get string length"⟩,
    ⟨"substring", t .String none none,
      [⟨"start", t .Int none none⟩, ⟨"end", t .Int none none⟩],
      some "Get substring from start to end"⟩,
    ⟨"toUpperCase", t .String none none, [], some "Convert to uppercase"⟩,
    ⟨"toLowerCase", t .String none none, [], some "Convert to lowercase"⟩,
    ⟨"contains", t .Bool none none, [⟨"str", t .String none none⟩],
      some "Check if string contains substring"⟩,
    ⟨"startsWith", t .Bool none none, [⟨"prefix", t .String none none⟩],
      some "Check if string starts with prefix"⟩,
    ⟨"endsWith", t .Bool none none, [⟨"suffix", t .String none none⟩],
      some "Check if string ends with suffix"⟩,
    ⟨"trim", t .String none none, [], some "Remove leading and trailing whitespace"⟩,
    ⟨"split", t .List (some [t .String none none]) none,
      [⟨"delimiter", t .String none none⟩], some "Split string by delimiter"⟩,
    ⟨"replace", t .String none none,
      [⟨"old", t .String none none⟩, ⟨"new", t .String none none⟩],
      some "Replace occurrences of old with new"⟩,
    ⟨"charAt", t .String none none, [⟨"index", t .Int none none⟩],
      some "Get character at index"⟩,
    ⟨"indexOf", t .Int none none, [⟨"str", t .String none none⟩],
      some "Find index of substring"⟩],
   []⟩

/-- The `Bool` entry of `initBuiltinTypes`. -/
def boolTypeDef : TypeDefinition :=
  ⟨.Bool, "Bool", none,
   [⟨"toString", t .String none none, [], some "Convert to string"⟩],
   []⟩

/-- The `List<T>` entry of `initBuiltinTypes`. -/
def listTypeDef : TypeDefinition :=
  ⟨.List, "List", some ["T"],
   [⟨"add", t .Unknown none (some "Unit"), [⟨"element", generic "T"⟩],
      some "Add element to list"⟩,
    ⟨"get", generic "T", [⟨"index", t .Int none none⟩], some "Get element at index"⟩,
    ⟨"set", t .Unknown none (some "Unit"),
      [⟨"index", t .Int none none⟩, ⟨"element", generic "T"⟩],
      some "Set element at index"⟩,
    ⟨"remove", t .Bool none none, [⟨"index", t .Int none none⟩],
      some "Remove element at index"⟩,
    ⟨"size", t .Int none none, [], some "Get list size"⟩,
    ⟨"isEmpty", t .Bool none none, [], some "Check if list is empty"⟩,
    ⟨"contains", t .Bool none none, [⟨"element", generic "T"⟩],
      some "Check if list contains element"⟩,
    ⟨"indexOf", t .Int none none, [⟨"element", generic "T"⟩],
      some "Find index of element"⟩,
    ⟨"clear", t .Unknown none (some "Unit"), [], some "Remove all elements"⟩,
    ⟨"first", generic "T", [], some "Get first element"⟩,
    ⟨"last", generic "T", [], some "Get last element"⟩],
   []⟩

/-- The `MutableMap<K, V>` entry of `initBuiltinTypes`. -/
def mutableMapTypeDef : TypeDefinition :=
  ⟨.MutableMap, "MutableMap", some ["K", "V"],
   [⟨"put", t .Unknown none (some "Unit"),
      [⟨"key", generic "K"⟩, ⟨"value", generic "V"⟩], some "Put key-value pair"⟩,
    ⟨"get", generic "V", [⟨"key", generic "K"⟩], some "Get value by key"⟩,
    ⟨"remove", t .Bool none none, [⟨"key", generic "K"⟩], some "Remove entry by key"⟩,
    ⟨"containsKey", t .Bool none none, [⟨"key", generic "K"⟩],
      some "Check if map contains key"⟩,
    ⟨"containsValue", t .Bool none none, [⟨"value", generic "V"⟩],
      some "Check if map contains value"⟩,
    ⟨"keys", t .List (some [generic "K"]) none, [], some "Get all keys"⟩,
    ⟨"values", t .List (some [generic "V"]) none, [], some "Get all values"⟩,
    ⟨"size", t .Int none none, [], some "Get map size"⟩,
    ⟨"isEmpty", t .Bool none none, [], some "Check if map is empty"⟩,
    ⟨"clear", t .Unknown none (some "Unit"), [], some "Remove all entries"⟩],
   []⟩

/-- The `MutableSet<T>` entry of `initBuiltinTypes`. -/
def mutableSetTypeDef : TypeDefinition :=
  ⟨.MutableSet, "MutableSet", some ["T"],
   [⟨"add", t .Bool none none, [⟨"element", generic "T"⟩], some "Add element to set"⟩,
    ⟨"remove", t .Bool none none, [⟨"element", generic "T"⟩],
      some "Remove element from set"⟩,
    ⟨"contains", t .Bool none none, [⟨"element", generic "T"⟩],
      some "Check if set contains element"⟩,
    ⟨"size", t .Int none none, [], some "Get set size"⟩,
    ⟨"isEmpty", t .Bool none none, [], some "Check if set is empty"⟩,
    ⟨"clear", t .Unknown none (some "Unit"), [], some "Remove all elements"⟩],
   []⟩

/-- The `TypeRegistry` state: built-in and user-defined definition maps. -/
structure TypeRegistry where
  builtinTypes : TDMap
  userTypes : TDMap
deriving Repr

/-- `initBuiltinTypes` / the constructor: the six built-ins in insertion
order, with no user types yet. -/
def initialRegistry : TypeRegistry :=
  ⟨[("Int", intTypeDef), ("String", stringTypeDef), ("Bool", boolTypeDef),
    ("List", listTypeDef), ("MutableMap", mutableMapTypeDef),
    ("MutableSet", mutableSetTypeDef)], []⟩

/-- The `\s*->\s*(.+)` tail of the registry's method pattern (the capture is
the greedy dot-run after the arrow, with the one-character whitespace
concession; see `eqRhsTailNoAnchor`). -/
def arrowRetCapture (s5 : List Char) : Option (List Char) :=
  match stripLit "->".data ((munch jsWs s5).2) with
  | some s6 =>
    let cap := (s6.dropWhile jsWs).takeWhile dotChar
    if cap.isEmpty then
      (if s6.isEmpty then none else some (s6.reverse.take 1))
    else some cap
  | none => none

/-- The `fun\s+([a-zA-Z_][a-zA-Z0-9_]*)\s*\(([^)]*)\)(?:\s*->\s*(.+))?` core
of `parseMethodFromLine` (part_008): note the arrow — not the colon of the
§4.7 pass — and that a failed arrow group still yields a match with no
return-type capture. -/
def methodSigCore (s : List Char) : Option (List Char × Option (List Char)) :=
  match stripLit "fun".data s with
  | some s1 =>
    (match s1 with
     | c :: _ =>
       if jsWs c then
         match identMunch ((munch jsWs s1).2) with
         | some (_, s3) =>
           (match (munch jsWs s3).2 with
            | '(' :: s4 =>
              (match s4.dropWhile (fun ch => ch ≠ ')') with
               | ')' :: s5 => some (s4.takeWhile (fun ch => ch ≠ ')'), arrowRetCapture s5)
               | _ => none)
            | _ => none)
         | none => none
       else none
     | [] => none)
  | none => none

/-- One position of the full `(?:io\s+)?fun...` method pattern of
part_008. -/
def methodSigAt (_prev : Option Char) (s : List Char) :
    Option (List Char × Option (List Char)) :=
  (match stripLit "io".data s with
   | some s1 =>
     (match s1 with
      | c :: _ => if jsWs c then methodSigCore ((munch jsWs s1).2) else none
      | [] => none)
   | none => none) <|> methodSigCore s

/-- One position of the parameter pattern
`([a-zA-Z_][a-zA-Z0-9_]*)\s*:\s*(.+)` of `parseParams`. -/
def paramAt (_prev : Option Char) (s : List Char) : Option (String × List Char) :=
  match identMunch s with
  | none => none
  | some (nm, r1) =>
    match (munch jsWs r1).2 with
    | ':' :: r2 =>
      let cap := (r2.dropWhile jsWs).takeWhile dotChar
      if cap.isEmpty then
        (if r2.isEmpty then none else some (String.mk nm, r2.reverse.take 1))
      else some (String.mk nm, cap)
    | _ => none

/-- `parseParams` of part_008: split on top-level commas, keep the parts that
match the name-colon-type pattern. -/
def parseParams (paramsStr : List Char) : List ParamInfo :=
  if (jsTrimL paramsStr).isEmpty then []
  else
    (parseCommaSeparated paramsStr).filterMap (fun part =>
      (matchFirst paramAt part).map (fun p => (⟨p.1, parseTypeString (jsTrimL p.2)⟩ : ParamInfo)))

/-- `parseMethodFromLine` of part_008: out-of-range line → null; an unmatched
line still harvests a method named after the node with an `Unknown`
(displayed `Unit`) return type and no parameters; a matched line parses the
parameters and, when the arrow group matched, the trimmed return type. -/
def parseMethodFromLine (lines : List (List Char)) (node : ASTNode) : Option MethodInfo :=
  if node.line < lines.length then
    match matchFirst methodSigAt (jsTrimL (lineAt lines node.line)) with
    | none => some ⟨node.name, t .Unknown none (some "Unit"), [], none⟩
    | some (params, retOpt) =>
      some ⟨node.name,
            (match retOpt with
             | some ret => parseTypeString (jsTrimL ret)
             | none => t .Unknown none (some "Unit")),
            parseParams params, none⟩
  else none

/-- The `(?:\s*:\s*([^=]+))?` tail of the field pattern: the greedy non-`=`
run after the colon, with the backtracking concession of the last whitespace
character when the run would otherwise start at an `=`. -/
def fieldAnnCapture (r2 : List Char) : Option (List Char) :=
  let cap := (r2.dropWhile jsWs).takeWhile (fun c => c ≠ '=')
  if !cap.isEmpty then some cap
  else if (r2.takeWhile jsWs).isEmpty then none
  else some ((r2.takeWhile jsWs).reverse.take 1)

/-- One position of `\b(var|val)\s+([a-zA-Z_][a-zA-Z0-9_]*)(?:\s*:\s*([^=]+))?`
(`parseFieldFromLine`): whether the keyword was `var`, and the optional raw
annotation. -/
def fieldDeclAt (prev : Option Char) (s : List Char) : Option (Bool × Option (List Char)) :=
  if boundaryBefore prev then
    match ((stripLit "var".data s).map (fun r => (true, r))) <|>
        ((stripLit "val".data s).map (fun r => (false, r))) with
    | some (isVar, s1) =>
      (match s1 with
       | c :: _ =>
         if jsWs c then
           match identMunch ((munch jsWs s1).2) with
           | some (_, s3) =>
             some (isVar,
               (match (munch jsWs s3).2 with
                | ':' :: r2 => fieldAnnCapture r2
                | _ => none))
           | none => none
         else none
       | [] => none)
    | none => none
  else none

/-- `parseFieldFromLine` of part_008: mutability from `var` vs `val`, type
from the optional annotation (else `Unknown`); an unmatched line still
harvests a mutable `Unknown` field named after the node. -/
def parseFieldFromLine (lines : List (List Char)) (node : ASTNode) : Option FieldInfo :=
  if node.line < lines.length then
    match matchFirst fieldDeclAt (jsTrimL (lineAt lines node.line)) with
    | none => some ⟨node.name, t .Unknown none none, true⟩
    | some (isVar, annOpt) =>
      some ⟨node.name,
            (match annOpt with
             | some ann => parseTypeString (jsTrimL ann)
             | none => t .Unknown none none),
            isVar⟩
  else none

/-- `extractTypeDefinition` of part_008: methods from `function` children,
fields from `variable` children, in child order. -/
def extractTypeDefinition (lines : List (List Char)) (node : ASTNode) : TypeDefinition :=
  ⟨.Custom, node.name, none,
   node.children.filterMap (fun child =>
     if child.kind = .functionDecl then parseMethodFromLine lines child else none),
   node.children.filterMap (fun child =>
     if child.kind = .varDecl then parseFieldFromLine lines child else none)⟩

mutual
/-- `collectTypesRecursive` of part_008 (plain preorder recursion in the
source). -/
def collectTypesRecursive (lines : List (List Char)) : ASTNode → TDMap → TDMap
  | .mk k nm ln sl el cs, userTypes =>
    collectTypesList lines cs
      (if k = .classDecl || k = .actorDecl then
        tdset userTypes nm (extractTypeDefinition lines (.mk k nm ln sl el cs))
       else userTypes)

/-- The child loop of `collectTypesRecursive`. -/
def collectTypesList (lines : List (List Char)) : List ASTNode → TDMap → TDMap
  | [], ut => ut
  | c :: cs, ut => collectTypesList lines cs (collectTypesRecursive lines c ut)
end

/-- `collectUserTypes` of part_008: clear the user catalog, then harvest. -/
def collectUserTypes (reg : TypeRegistry) (ast : ASTNode) (lines : List (List Char)) :
    TypeRegistry :=
  ⟨reg.builtinTypes, collectTypesRecursive lines ast []⟩

/-- `genericMap` construction of `resolveGenericMethods`: positional pairing
of declared parameter names with the instance generics, truncated to the
shorter list. -/
def buildGenericMap (ps : List String) (gs : List TypeInfo) : TMap :=
  (ps.zip gs).foldl (fun m p => tset m p.1 p.2) []

mutual
/-- `resolveGenericType` of part_008: a placeholder whose display name is in
the map (JS truthiness: an empty name never looks up) is replaced; otherwise
the generics are resolved recursively (the spread keeps every other field). -/
def resolveGenericType : TypeInfo → TMap → TypeInfo
  | .mk k g n h, genericMap =>
    match (match n with
           | some nm => if nm.isEmpty then none else tget genericMap nm
           | none => none) with
    | some repl => repl
    | none =>
      match g with
      | some gs => .mk k (some (resolveGenericList gs genericMap)) n h
      | none => .mk k none n h

/-- `resolveGenericType` over a generic list. -/
def resolveGenericList : List TypeInfo → TMap → List TypeInfo
  | [], _ => []
  | g0 :: gs, genericMap => resolveGenericType g0 genericMap :: resolveGenericList gs genericMap
end

/-- `resolveGenericMethods` of part_008: no declared parameters or no
instance generics → the table unchanged; otherwise substitute through every
method's return and parameter types. -/
def resolveGenericMethods (typeDef : TypeDefinition) (typeInfo : TypeInfo) : List MethodInfo :=
  match typeDef.genericParams, typeInfo.generics with
  | some gparams, some gens =>
    let genericMap := buildGenericMap gparams gens
    typeDef.methods.map (fun method =>
      { method with
        returnType := resolveGenericType method.returnType genericMap
        params := method.params.map (fun p =>
          { p with type := resolveGenericType p.type genericMap }) })
  | _, _ => typeDef.methods

/-- `getMethodsForType` of part_008: built-ins by kind string (with generic
resolution), then user types by display name (or kind string). -/
def getMethodsForType (reg : TypeRegistry) (typeInfo : TypeInfo) : List MethodInfo :=
  match tdget reg.builtinTypes (kindStr typeInfo.kind) with
  | some builtinDef => resolveGenericMethods builtinDef typeInfo
  | none =>
    match tdget reg.userTypes (typeInfo.readonlyName.getD (kindStr typeInfo.kind)) with
    | some userDef => userDef.methods
    | none => []

/-- `getFieldsForType` of part_008 (user types only). -/
def getFieldsForType (reg : TypeRegistry) (typeInfo : TypeInfo) : List FieldInfo :=
  match tdget reg.userTypes (typeInfo.readonlyName.getD (kindStr typeInfo.kind)) with
  | some userDef => userDef.fields
  | none => []

/-- `getTypeDefinition` of part_008: built-ins shadow user types. -/
def getTypeDefinition (reg : TypeRegistry) (name : String) : Option TypeDefinition :=
  match tdget reg.builtinTypes name with
  | some d => some d
  | none => tdget reg.userTypes name

/-! ## Claim-side definitions

These definitions follow the wording of the spec / claims (not the source);
each is compared against the corresponding source-derived definition by a
theorem below. -/

mutual
/-- The span-containment invariant exactly as claimed (§3/§8): every child's
`[startLine, endLine]` span is contained within its parent's span, at every
level. -/
def spansNested : ASTNode → Bool
  | .mk _ _ _ sl el cs => spansNestedChildren sl el cs

/-- `spansNested` over the children of a node spanning `[sl, el]`. -/
def spansNestedChildren (sl el : Nat) : List ASTNode → Bool
  | [] => true
  | c :: cs =>
    (sl ≤ c.startLine && c.endLine ≤ el) && spansNested c && spansNestedChildren sl el cs
end

mutual
/-- The weakened span discipline the parser actually guarantees: every child
starts within its parent's span, every span is ordered, and every span ends
by `last`, the final line index of the document (an unterminated inner block
may run past its parent's end, but never past the document). -/
def weakSpans (last : Nat) : ASTNode → Bool
  | .mk _ _ _ sl el cs => weakSpansChildren last sl el cs

/-- `weakSpans` over the children of a node spanning `[sl, el]`. -/
def weakSpansChildren (last : Nat) (sl el : Nat) : List ASTNode → Bool
  | [] => true
  | c :: cs =>
    (sl ≤ c.startLine && c.startLine ≤ el && c.startLine ≤ c.endLine && c.endLine ≤ last)
      && weakSpans last c && weakSpansChildren last sl el cs
end

mutual
/-- The §4.2 claim read literally: the symbols returned for a line are, in
tree-traversal order, the qualifying children (see `symbolEntryFor`) of
every node whose own span contains the line — with no requirement on the
ancestors' spans.  On span-nested trees this coincides with the source's
`collectVisibleSymbols`; on a tree with an escaped child span it does not. -/
def specSymbolsAtLine : ASTNode → Nat → List SymbolInfo
  | .mk _ _ _ sl el cs, line => specSymbolsChildren cs line (sl ≤ line && line ≤ el)

/-- The child walk of `specSymbolsAtLine`: `collectHere` says whether the
parent's span contains the line (and hence whether entries are emitted at
this level); descent continues either way. -/
def specSymbolsChildren : List ASTNode → Nat → Bool → List SymbolInfo
  | [], _, _ => []
  | c :: cs, line, collectHere =>
    (if collectHere then symbolEntryFor c line else []) ++ specSymbolsAtLine c line
      ++ specSymbolsChildren cs line collectHere
end

/-- A canonical type string of the C10 claim, as a tree: a base identifier
with canonical generic arguments (none for a bare name). -/
inductive CanonType where
  | mk (base : String) (args : List CanonType)

/-- Identifier well-formedness for canonical base names
(`[a-zA-Z_][a-zA-Z0-9_]*`). -/
def identString (s : List Char) : Bool :=
  match s with
  | [] => false
  | c :: rest => identStartChar c && rest.all wordChar

mutual
/-- Rendering of a canonical type: the base name, with `<...>` around the
comma-space separated arguments when there are any; no other whitespace. -/
def renderCanon : CanonType → String
  | .mk base [] => base
  | .mk base (a :: as_) => base ++ "<" ++ renderCanon a ++ renderCanonArgs as_ ++ ">"

/-- The later arguments of a canonical rendering, each with its `", "`
separator. -/
def renderCanonArgs : List CanonType → String
  | [] => ""
  | b :: bs => ", " ++ renderCanon b ++ renderCanonArgs bs
end

mutual
/-- Well-formedness of a canonical type: every base is an identifier. -/
def canonWf : CanonType → Bool
  | .mk base args => identString base.data && canonWfList args

/-- `canonWf` over an argument list. -/
def canonWfList : List CanonType → Bool
  | [] => true
  | a :: as_ => canonWf a && canonWfList as_
end

/-! ## Concrete inputs used by the claims -/

/-- The §8 document of the binary-operation claim. -/
def c3Doc : String := "val r = 1 + 2 * 3\nval s = \"a\" + \"b\"\nval t = \"a\" - \"b\""

/-- The §8 document of the first collection claim. -/
def c7DocA : String := "val l = List.new()\nl.add(1)\nl.add(2)"

/-- The §8 document of the second collection claim (conflicting add). -/
def c7DocB : String := "val l2 = List.new()\nl2.add(1)\nl2.add(\"a\")"

/-- A document on which the parser's span-containment claim fails: the `if`
block on line 1 never finds an opening brace, so its recovery end is the last
line (3), escaping the enclosing actor, which ends at line 2. -/
def c4Doc : String := "actor A \x7b\nif x\n\x7d\nval y = 1"

/-- A well-formed nested document (for the scope-resolver witness). -/
def c2Doc : String :=
  "actor M \x7b\nfun helper() \x7b\nval inner = 1\n\x7d\nval field = 2\n\x7d"

/-- Source lines of a class whose method is declared with the colon-style
return annotation of §4.7. -/
def c9Lines : List (List Char) :=
  ["class Person \x7b".data, "fun getAge(): Int".data, "\x7d".data]

/-- The function child node of the C9 class. -/
def c9FunNode : ASTNode := .mk .functionDecl "getAge" 1 1 2 []

/-- The C9 class node. -/
def c9ClassNode : ASTNode := .mk .classDecl "Person" 0 0 0 [c9FunNode]

/-- The `List<Int>` descriptor of the generic-substitution claim. -/
def listIntInfo : TypeInfo := make .List (some [make .Int none none none]) none none

/-! ## Theorems -/

/-- Equal-length generic lists merge exactly pairwise. -/
theorem mergeGenerics_eq_zipWith :
    ∀ gas gbs : List TypeInfo, gas.length = gbs.length →
      mergeGenerics gas gbs = List.zipWith mergeTypes gas gbs := by
  intro gas
  induction gas with
  | nil =>
    intro gbs h
    cases gbs with
    | nil => rfl
    | cons b bs => simp at h
  | cons a as_ ih =>
    intro gbs h
    cases gbs with
    | nil => simp at h
    | cons b bs =>
      have hrec := ih bs (by simpa using h)
      simp [mergeGenerics, hrec]

/-- C5: `mergeTypes(a, b)` — same kind merges each generic slot pairwise and
recursively when both generic lists are present with equal length (and keeps
`a` otherwise, the left bias); an `Unknown` side yields the other side; any
other mismatch of two known kinds yields `a` (the previously recorded type
wins). -/
theorem mergeTypes_claim (a b : TypeInfo) :
    (∀ gas gbs, a.kind = b.kind → a.generics = some gas → b.generics = some gbs →
      gas.length = gbs.length →
      mergeTypes a b = .mk a.kind (some (List.zipWith mergeTypes gas gbs)) none none) ∧
    (a.kind = b.kind →
      (∀ gas gbs,
        ¬(a.generics = some gas ∧ b.generics = some gbs ∧ gas.length = gbs.length)) →
      mergeTypes a b = a) ∧
    (a.kind = .Unknown → b.kind ≠ .Unknown → mergeTypes a b = b) ∧
    (b.kind = .Unknown → a.kind ≠ .Unknown → mergeTypes a b = a) ∧
    (a.kind ≠ b.kind → a.kind ≠ .Unknown → b.kind ≠ .Unknown → mergeTypes a b = a) := by
  obtain ⟨ka, ga, na, ha⟩ := a
  obtain ⟨kb, gb, nb, hb⟩ := b
  refine ⟨?_, ?_, ?_, ?_, ?_⟩
  · intro gas gbs hk hga hgb hlen
    simp only [TypeInfo.kind] at hk ⊢
    simp only [TypeInfo.generics] at hga hgb
    subst hk; subst hga; subst hgb
    rw [mergeTypes.eq_def]
    simp [hlen, mergeGenerics_eq_zipWith gas gbs hlen]
  · intro hk hno
    simp only [TypeInfo.kind] at hk
    simp only [TypeInfo.generics] at hno
    subst hk
    rcases ga with _ | gas <;> rcases gb with _ | gbs
    · rw [mergeTypes.eq_def]; simp
    · rw [mergeTypes.eq_def]; simp
    · rw [mergeTypes.eq_def]; simp
    · have hlen : gas.length ≠ gbs.length := fun h => hno gas gbs ⟨rfl, rfl, h⟩
      rw [mergeTypes.eq_def]; simp [hlen]
  · intro hka hkb
    simp only [TypeInfo.kind] at hka hkb
    subst hka
    have hne2 : ¬(TypeKind.Unknown = kb) := fun h => hkb h.symm
    rw [mergeTypes.eq_def]; simp [hne2]
  · intro hkb hka
    simp only [TypeInfo.kind] at hka hkb
    subst hkb
    rw [mergeTypes.eq_def]; simp [hka]
  · intro hne hka hkb
    simp only [TypeInfo.kind] at hne hka hkb
    rw [mergeTypes.eq_def]; simp [hne, hka, hkb]

/-- Witness for C5 at concrete inputs: the left-bias case `Int` vs `String`,
and the recursive same-kind case `List<Unknown>` vs `List<Int>`. -/
theorem mergeTypes_claim_witness :
    mergeTypes (make .Int none none none) (make .String none none none)
      = make .Int none none none ∧
    mergeTypes (make .List (some [make .Unknown none none none]) none none)
        (make .List (some [make .Int none none none]) none none)
      = .mk .List (some (List.zipWith mergeTypes [make .Unknown none none none]
          [make .Int none none none])) none none := by
  constructor
  · exact (mergeTypes_claim (make .Int none none none) (make .String none none none)).2.2.2.2
      (by decide) (by decide) (by decide)
  · exact (mergeTypes_claim (make .List (some [make .Unknown none none none]) none none)
      (make .List (some [make .Int none none none]) none none)).1
      [make .Unknown none none none] [make .Int none none none] rfl rfl rfl rfl

/-- Concrete evaluation of the (well-founded) type-string parser at `"Int"`. -/
theorem parseTypeString_evalInt : parseTypeString "Int".data = make .Int none none none := by
  rw [parseTypeString.eq_def]
  rfl

/-- C6: on a scanned line parsing as `object.add(x)` with exactly one
argument, the collection pass rewrites the entry only when it exists with
kind `List` or `MutableSet`, merging the inferred argument type into the
element slot and keeping the collection kind; an absent entry, or one of any
other kind (in particular `Unknown`), leaves the map unchanged. -/
theorem scanCollection_add_claim (frt m : TMap) (raw : List Char) (c : MethodCall)
    (x : List Char)
    (hc : parseMethodCall (jsTrimL raw) = some c)
    (hmeth : c.method = "add") (hargs : c.args = [x]) :
    (∀ e, tget m c.object = some e → e.kind = .List →
      scanCollectionLine frt m raw
        = tset m c.object
            (make .List (some [mergeTypes (genericAt0 e) (inferExpressionType frt m x)])
              none none)) ∧
    (∀ e, tget m c.object = some e → e.kind = .MutableSet →
      scanCollectionLine frt m raw
        = tset m c.object
            (make .MutableSet (some [mergeTypes (genericAt0 e) (inferExpressionType frt m x)])
              none none)) ∧
    (tget m c.object = none → scanCollectionLine frt m raw = m) ∧
    (∀ e, tget m c.object = some e → e.kind ≠ .List → e.kind ≠ .MutableSet →
      scanCollectionLine frt m raw = m) := by
  have hstep : scanCollectionLine frt m raw
      = mergeCollectionElementType m c.object (inferExpressionType frt m x) := by
    simp only [scanCollectionLine, hc, hmeth, hargs]
    simp
  refine ⟨?_, ?_, ?_, ?_⟩
  · intro e he hk
    have hk2 : e.kind ≠ .MutableSet := by rw [hk]; intro h; exact absurd h (by decide)
    rw [hstep]
    simp only [mergeCollectionElementType, he, if_neg hk2, if_pos hk]
  · intro e he hk
    rw [hstep]
    simp only [mergeCollectionElementType, he, if_pos hk]
  · intro he
    rw [hstep]
    simp only [mergeCollectionElementType, he]
  · intro e he hk1 hk2
    rw [hstep]
    simp only [mergeCollectionElementType, he, if_neg hk2, if_neg hk1]

/-- Witness for C6 at a concrete input: with `l` recorded as `List<Unknown>`,
the line `l.add(1)` rewrites the entry to the merged `List<Int>`. -/
theorem scanCollection_add_claim_witness :
    scanCollectionLine []
        [("l", make .List (some [make .Unknown none none none]) none none)] "l.add(1)".data
      = [("l", make .List (some [make .Int none none none]) none none)] := by
  have h := (scanCollection_add_claim []
      [("l", make .List (some [make .Unknown none none none]) none none)]
      "l.add(1)".data ⟨"l", "add", ["1".data]⟩ "1".data rfl rfl rfl).1
      (make .List (some [make .Unknown none none none]) none none) rfl rfl
  rw [h]
  rfl

/-- C7: `val l = List.new(); l.add(1); l.add(2)` infers `l : List<Int>`, and
`val l2 = List.new(); l2.add(1); l2.add("a")` infers `l2 : List<Int>` — the
first-seen element kind wins and the later conflicting `String` observation
is discarded by the left-biased merge. -/
theorem inferTypes_collection_docs :
    tget (inferFromText c7DocA (parse c7DocA)) "l"
        = some (make .List (some [make .Int none none none]) none none) ∧
    tget (inferFromText c7DocB (parse c7DocB)) "l2"
        = some (make .List (some [make .Int none none none]) none none) :=
  ⟨rfl, rfl⟩

/-- C8: the method table of `List<Int>` is the built-in `List` table with
`T` substituted by `Int` everywhere — `get` returns `Int`, `add` takes an
`Int` — and `resolveGenericType` pushes the substitution through a nested
`List<T>`, giving `List<Int>`. -/
theorem listInt_methods_claim :
    getMethodsForType initialRegistry listIntInfo
      = [⟨"add", t .Unknown none (some "Unit"), [⟨"element", make .Int none none none⟩],
          some "Add element to list"⟩,
         ⟨"get", make .Int none none none, [⟨"index", t .Int none none⟩],
          some "Get element at index"⟩,
         ⟨"set", t .Unknown none (some "Unit"),
          [⟨"index", t .Int none none⟩, ⟨"element", make .Int none none none⟩],
          some "Set element at index"⟩,
         ⟨"remove", t .Bool none none, [⟨"index", t .Int none none⟩],
          some "Remove element at index"⟩,
         ⟨"size", t .Int none none, [], some "Get list size"⟩,
         ⟨"isEmpty", t .Bool none none, [], some "Check if list is empty"⟩,
         ⟨"contains", t .Bool none none, [⟨"element", make .Int none none none⟩],
          some "Check if list contains element"⟩,
         ⟨"indexOf", t .Int none none, [⟨"element", make .Int none none none⟩],
          some "Find index of element"⟩,
         ⟨"clear", t .Unknown none (some "Unit"), [], some "Remove all elements"⟩,
         ⟨"first", make .Int none none none, [], some "Get first element"⟩,
         ⟨"last", make .Int none none none, [], some "Get last element"⟩] ∧
    resolveGenericType (t .List (some [generic "T"]) none)
        (buildGenericMap ["T"] [make .Int none none none])
      = t .List (some [make .Int none none none]) none :=
  ⟨rfl, rfl⟩

/-- Counterexample to C3 as stated: on the §8 document, `t` is mapped to
`String`, not `Unknown` — the initializer pass already classifies the whole
right-hand side `"a" - "b"` as a string literal (the `^".*"$` test spans the
inner quotes), and the binary-operation pass never overwrites an entry that
contains no `Unknown`. -/
theorem inferTypes_stringMinus_cex :
    tget (inferFromText c3Doc (parse c3Doc)) "t" = some (make .String none none none) ∧
    tget (inferFromText c3Doc (parse c3Doc)) "t" ≠ some (make .Unknown none none none) := by
  refine ⟨rfl, ?_⟩
  intro h
  rw [show tget (inferFromText c3Doc (parse c3Doc)) "t" = some (make .String none none none)
    from rfl] at h
  simp [make] at h

/-- C3 as amended: `val r = 1 + 2 * 3` infers `Int` (kind-only folding,
no precedence), `val s = "a" + "b"` infers `String`, and `val t = "a" - "b"`
infers `String` (not `Unknown`): the quoted-string test of the initializer
pass matches the whole right-hand side first, and the later binary-operation
pass does not overwrite a resolved entry. -/
theorem inferTypes_arith_doc :
    tget (inferFromText c3Doc (parse c3Doc)) "r" = some (make .Int none none none) ∧
    tget (inferFromText c3Doc (parse c3Doc)) "s" = some (make .String none none none) ∧
    tget (inferFromText c3Doc (parse c3Doc)) "t" = some (make .String none none none) :=
  ⟨rfl, rfl, rfl⟩

/-- Counterexample to C4 as stated: parsing `c4Doc` produces a block node
spanning lines 1–3 inside an actor spanning lines 0–2 (the inner `if` block
has no brace, so its recovery end is the last document line), violating
child-span containment. -/
theorem parse_span_nesting_cex :
    parse c4Doc
      = .mk .program "root" 0 0 3
          [.mk .actorDecl "A" 0 0 2
            [.mk .blockStmt "block_1" 1 1 3 [.mk .varDecl "y" 3 3 3 []]]] ∧
    spansNested (parse c4Doc) = false :=
  ⟨rfl, rfl⟩

/-- Counterexample to C2 as stated: on the parsed tree of `c4Doc` (whose
block child escapes its parent's span), the symbols the claim describes for
line 3 (the actor `A` and the variable `y`, whose containing block's span
holds line 3) differ from what `getSymbolsAtLine` returns (only `A`: the
resolver never descends past the actor, whose span stops at line 2). -/
theorem getSymbols_claim_cex :
    getSymbolsAtLine (parse c4Doc) 3 ≠ specSymbolsAtLine (parse c4Doc) 3 := by
  intro h
  have hlen := congrArg List.length h
  rw [show (getSymbolsAtLine (parse c4Doc) 3).length = 1 from rfl,
      show (specSymbolsAtLine (parse c4Doc) 3).length = 2 from rfl] at hlen
  exact absurd hlen (by decide)

/-- Counterexample to C9 as stated: harvesting the class whose method line is
`fun getAge(): Int` records the method with return type `Unknown` (displayed
`Unit`), while the §4.7 pass on the same line parses `Int` — the registry's
signature pattern is the arrow form, not the colon form. -/
theorem registry_colon_method_cex :
    (collectUserTypes initialRegistry c9ClassNode c9Lines).userTypes
      = [("Person", ⟨.Custom, "Person", none,
            [⟨"getAge", t .Unknown none (some "Unit"), [], none⟩], []⟩)] ∧
    parseFunctionReturnType c9Lines 1 = some (make .Int none none none) ∧
    (t .Unknown none (some "Unit") : TypeInfo) ≠ make .Int none none none := by
  refine ⟨rfl, ?_, ?_⟩
  · have h : parseFunctionReturnType c9Lines 1 = some (parseTypeString "Int".data) := rfl
    rw [h, parseTypeString_evalInt]
  · intro h
    simp [t, make] at h

/-- `set` makes its key present. -/
theorem thas_tset_self : ∀ (m : TMap) (k : String) (v : TypeInfo),
    thas (tset m k v) k = true := by
  intro m
  induction m with
  | nil => intro k v; simp [tset, thas]
  | cons p rest ih =>
    intro k v
    by_cases h : p.1 = k
    · simp [tset, thas, h]
    · simp only [tset]
      rw [if_neg h]
      simp [thas, ih, h]

/-- `set` keeps every present key present. -/
theorem thas_tset_mono : ∀ (m : TMap) (k : String) (v : TypeInfo) (k' : String),
    thas m k' = true → thas (tset m k v) k' = true := by
  intro m
  induction m with
  | nil => intro k v k' h; simp [thas] at h
  | cons p rest ih =>
    intro k v k' h
    by_cases hk : p.1 = k
    · simp only [tset, if_pos hk]
      simp only [thas] at h ⊢
      rcases Bool.or_eq_true_iff.mp h with h1 | h1
      · exact Bool.or_eq_true_iff.mpr (Or.inl h1)
      · exact Bool.or_eq_true_iff.mpr (Or.inr h1)
    · simp only [tset, if_neg hk]
      simp only [thas] at h ⊢
      rcases Bool.or_eq_true_iff.mp h with h1 | h1
      · exact Bool.or_eq_true_iff.mpr (Or.inl h1)
      · exact Bool.or_eq_true_iff.mpr (Or.inr (ih k v k' h1))

/-- The `add` merge never removes keys. -/
theorem mergeCollectionElementType_mono (m : TMap) (name : String) (et : TypeInfo)
    (k : String) (h : thas m k = true) :
    thas (mergeCollectionElementType m name et) k = true := by
  unfold mergeCollectionElementType
  repeat' split
  all_goals first
    | exact h
    | exact thas_tset_mono _ _ _ _ h
    | exact mergeCollectionElementType_mono _ _ _ _ h
    | exact mergeMapTypes_mono _ _ _ _ _ h

/-- The `put` merge never removes keys. -/
theorem mergeMapTypes_mono (m : TMap) (name : String) (kt vt : TypeInfo)
    (k : String) (h : thas m k = true) :
    thas (mergeMapTypes m name kt vt) k = true := by
  unfold mergeMapTypes
  repeat' split
  all_goals first
    | exact h
    | exact thas_tset_mono _ _ _ _ h
    | exact mergeCollectionElementType_mono _ _ _ _ h
    | exact mergeMapTypes_mono _ _ _ _ _ h

/-- One line of the no-initializer pass never removes keys. -/
theorem scanDeclsNoInitLine_mono (m : TMap) (line : List Char) (k : String)
    (h : thas m k = true) : thas (scanDeclsNoInitLine m line) k = true := by
  unfold scanDeclsNoInitLine
  repeat' split
  all_goals first
    | exact h
    | exact thas_tset_mono _ _ _ _ h
    | exact mergeCollectionElementType_mono _ _ _ _ h
    | exact mergeMapTypes_mono _ _ _ _ _ h

/-- One line of the initializer pass never removes keys. -/
theorem scanInitializersLine_mono (frt m : TMap) (line : List Char) (k : String)
    (h : thas m k = true) : thas (scanInitializersLine frt m line) k = true := by
  unfold scanInitializersLine
  repeat' split
  all_goals first
    | exact h
    | exact thas_tset_mono _ _ _ _ h
    | exact mergeCollectionElementType_mono _ _ _ _ h
    | exact mergeMapTypes_mono _ _ _ _ _ h

/-- One line of the collection pass never removes keys. -/
theorem scanCollectionLine_mono (frt m : TMap) (line : List Char) (k : String)
    (h : thas m k = true) : thas (scanCollectionLine frt m line) k = true := by
  unfold scanCollectionLine
  repeat' split
  all_goals first
    | exact h
    | exact thas_tset_mono _ _ _ _ h
    | exact mergeCollectionElementType_mono _ _ _ _ h
    | exact mergeMapTypes_mono _ _ _ _ _ h

/-- One line of the binary-operation pass never removes keys. -/
theorem scanBinaryOpsLine_mono (m : TMap) (line : List Char) (k : String)
    (h : thas m k = true) : thas (scanBinaryOpsLine m line) k = true := by
  unfold scanBinaryOpsLine
  repeat' (first | split | dsimp only)
  all_goals first
    | exact h
    | exact thas_tset_mono _ _ _ _ h

/-- Folding a key-preserving step over the lines preserves keys. -/
theorem foldl_thas_mono (f : TMap → List Char → TMap)
    (hf : ∀ m line k, thas m k = true → thas (f m line) k = true) :
    ∀ (lines : List (List Char)) (m : TMap) (k : String),
      thas m k = true → thas (lines.foldl f m) k = true := by
  intro lines
  induction lines with
  | nil => intro m k h; exact h
  | cons l ls ih => intro m k h; exact ih (f m l) k (hf m l k h)

mutual
/-- The seeding pass never removes keys (node form). -/
theorem seedNode_mono (n : ASTNode) (m : TMap) (k : String) (h : thas m k = true) :
    thas (seedNode n m) k = true :=
  match n with
  | .mk kk nm l sl el cs => by
    rw [seedNode]
    apply seedList_mono
    by_cases hc : (kk = .varDecl && !(thas m nm)) = true
    · rw [if_pos hc]; exact thas_tset_mono _ _ _ _ h
    · rw [if_neg hc]; exact h

/-- The seeding pass never removes keys (child-list form). -/
theorem seedList_mono (cs : List ASTNode) (m : TMap) (k : String) (h : thas m k = true) :
    thas (seedList cs m) k = true :=
  match cs with
  | [] => h
  | c :: cs' => by
    rw [seedList]
    exact seedNode_mono c (seedList cs' m) k (seedList_mono cs' m k h)
end

mutual
/-- Seeding covers every variable name of the subtree (node form). -/
theorem seedNode_covers (n : ASTNode) (m : TMap) (k : String) (h : k ∈ varNames n) :
    thas (seedNode n m) k = true :=
  match n with
  | .mk kk nm l sl el cs => by
    rw [seedNode]
    rw [varNames] at h
    rcases List.mem_append.mp h with h1 | h1
    · apply seedList_mono
      by_cases hv : kk = NodeKind.varDecl
      · rw [if_pos hv] at h1
        have hk : k = nm := by simpa using h1
        subst hk
        by_cases hhas : thas m k = true
        · rw [show (kk = NodeKind.varDecl && !(thas m k)) = false by
            rw [hhas]; simp]
          exact hhas
        · have hfalse : thas m k = false := by
            revert hhas
            cases thas m k <;> simp
          rw [show (kk = NodeKind.varDecl && !(thas m k)) = true by
            rw [hfalse]; simp [hv]]
          exact thas_tset_self m k _
      · rw [if_neg hv] at h1
        simp at h1
    · exact seedList_covers cs _ k h1

/-- Seeding covers every variable name of the subtree (child-list form). -/
theorem seedList_covers (cs : List ASTNode) (m : TMap) (k : String)
    (h : k ∈ varNamesList cs) : thas (seedList cs m) k = true :=
  match cs with
  | c :: cs' => by
    rw [seedList]
    rw [varNamesList] at h
    rcases List.mem_append.mp h with h1 | h1
    · exact seedNode_covers c (seedList cs' m) k h1
    · exact seedNode_mono c (seedList cs' m) k (seedList_covers cs' m k h1)
end

/-- C1: `inferTypes` (that is, `inferFromText`) is a total function — this
Lean embedding returns a map for every text and tree — and its result
contains an entry for every `variable`-kind node of the tree: the seeding
pass inserts each such name (as `Unknown`), and every later pass only ever
adds or overwrites entries, never removes them. -/
theorem inferFromText_covers (text : String) (ast : ASTNode) (nm : String)
    (h : nm ∈ varNames ast) : thas (inferFromText text ast) nm = true := by
  unfold inferFromText scanBinaryOps scanCollectionUsages scanAssignments
    scanInitializers scanDeclarationsWithoutInit
  apply foldl_thas_mono _ scanBinaryOpsLine_mono
  apply foldl_thas_mono _ (scanCollectionLine_mono _)
  apply foldl_thas_mono _ (scanInitializersLine_mono _)
  apply foldl_thas_mono _ scanDeclsNoInitLine_mono
  exact seedNode_covers ast TMap.empty nm h

/-- Witness for C1 at a concrete input: a tree declaring the variable `w`
(text empty), whose name is present in the resulting map. -/
theorem inferFromText_covers_witness :
    thas (inferFromText "" (.mk .program "root" 0 0 0 [.mk .varDecl "w" 0 0 0 []])) "w"
      = true :=
  inferFromText_covers "" (.mk .program "root" 0 0 0 [.mk .varDecl "w" 0 0 0 []]) "w"
    (by simp [varNames, varNamesList])

mutual
/-- Under span nesting, a node whose span misses the line contributes no
claimed symbols (node form). -/
theorem specSymbols_nil_of_out (n : ASTNode) (line : Nat)
    (hw : spansNested n = true)
    (hout : line < n.startLine ∨ n.endLine < line) :
    specSymbolsAtLine n line = [] :=
  match n with
  | .mk k nm l sl el cs => by
    rw [specSymbolsAtLine]
    rw [spansNested] at hw
    simp only [ASTNode.startLine, ASTNode.endLine] at hout
    have hflag : (sl ≤ line && line ≤ el) = false := by
      rcases hout with h1 | h1 <;> simp [Nat.lt_iff_add_one_le] at h1 ⊢ <;> omega
    rw [hflag]
    exact specSymbols_nil_children sl el cs line hw hout

/-- Under span nesting, children of a node whose span misses the line
contribute no claimed symbols (child-list form). -/
theorem specSymbols_nil_children (sl el : Nat) (cs : List ASTNode) (line : Nat)
    (hw : spansNestedChildren sl el cs = true)
    (hout : line < sl ∨ el < line) :
    specSymbolsChildren cs line false = [] :=
  match cs with
  | [] => rfl
  | c :: cs' => by
    rw [specSymbolsChildren]
    rw [spansNestedChildren] at hw
    rcases Bool.and_eq_true_iff.mp hw with ⟨hw1, hw3⟩
    rcases Bool.and_eq_true_iff.mp hw1 with ⟨hspan, hw2⟩
    rcases Bool.and_eq_true_iff.mp hspan with ⟨hs1, hs2⟩
    have hcout : line < c.startLine ∨ c.endLine < line := by
      simp only [decide_eq_true_eq] at hs1 hs2
      rcases hout with h1 | h1
      · exact Or.inl (by omega)
      · exact Or.inr (by omega)
    rw [specSymbols_nil_of_out c line hw2 hcout,
        specSymbols_nil_children sl el cs' line hw3 hout]
    simp
end

mutual
/-- Under span nesting the resolver agrees with the claimed collection
(node form). -/
theorem collect_eq_spec (n : ASTNode) (line : Nat) (hw : spansNested n = true) :
    collectVisibleSymbols n line = specSymbolsAtLine n line :=
  match n with
  | .mk k nm l sl el cs => by
    rw [collectVisibleSymbols, specSymbolsAtLine]
    rw [spansNested] at hw
    by_cases hin : (line < sl || el < line) = true
    · rw [if_pos hin]
      have hflag : (sl ≤ line && line ≤ el) = false := by
        rcases Bool.or_eq_true_iff.mp hin with h1 | h1 <;>
          simp only [decide_eq_true_eq] at h1 <;> simp <;> omega
      rw [hflag]
      exact (specSymbols_nil_children sl el cs line hw
        (by rcases Bool.or_eq_true_iff.mp hin with h1 | h1 <;>
              simp only [decide_eq_true_eq] at h1
            · exact Or.inl h1
            · exact Or.inr h1)).symm
    · rw [if_neg hin]
      have hflag : (sl ≤ line && line ≤ el) = true := by
        simp only [Bool.or_eq_true_iff, decide_eq_true_eq, not_or] at hin
        simp
        omega
      rw [hflag]
      exact collect_eq_spec_children cs line hw

/-- Under span nesting the resolver agrees with the claimed collection
(child-list form; the parent's span contains the line). -/
theorem collect_eq_spec_children (cs : List ASTNode) (line : Nat)
    {sl el : Nat} (hw : spansNestedChildren sl el cs = true) :
    collectVisibleChildren cs line = specSymbolsChildren cs line true :=
  match cs with
  | [] => rfl
  | c :: cs' => by
    rw [collectVisibleChildren, specSymbolsChildren]
    rw [spansNestedChildren] at hw
    rcases Bool.and_eq_true_iff.mp hw with ⟨hw1, hw3⟩
    rcases Bool.and_eq_true_iff.mp hw1 with ⟨hspan, hw2⟩
    rw [collect_eq_spec c line hw2, collect_eq_spec_children cs' line hw3]
    simp
end

/-- C2 as amended: on every tree whose spans are properly nested (each
child's span within its parent's — the discipline the spec asserts for
parsed trees), `getSymbolsAtLine` returns exactly the claimed collection:
for each node whose span contains the queried line, in tree-traversal order,
every variable child declared at or before the line, every function child,
and every class/actor child.  (On parser output the nesting hypothesis can
fail — see the counterexample — and with it this equation.) -/
theorem getSymbolsAtLine_spec_of_nested (ast : ASTNode) (line : Nat)
    (hw : spansNested ast = true) :
    getSymbolsAtLine ast line = specSymbolsAtLine ast line :=
  collect_eq_spec ast line hw

/-- Witness for the amended C2 on the parsed nested document `c2Doc` at
line 4. -/
theorem getSymbolsAtLine_spec_witness :
    spansNested (parse c2Doc) = true ∧
    getSymbolsAtLine (parse c2Doc) 4 = specSymbolsAtLine (parse c2Doc) 4 :=
  ⟨rfl, getSymbolsAtLine_spec_of_nested (parse c2Doc) 4 rfl⟩

/-- Out-of-range line access yields the empty line. -/
theorem lineAt_out (lines : List (List Char)) (i : Nat) (h : lines.length ≤ i) :
    lineAt lines i = [] := by
  unfold lineAt
  induction lines generalizing i with
  | nil => simp [List.getD]
  | cons l ls ih =>
    cases i with
    | zero => simp at h
    | succ j =>
      simp only [List.length_cons] at h
      simpa [List.getD] using ih j (by omega)

/-- An empty line leaves the brace scan in flight. -/
theorem scanBraceLine_nil (c : Int) (f : Bool) : scanBraceLine [] c f = some (c, f) := rfl

/-- Past the last line, the block-end scan always recovers to
`lines.length - 1`. -/
theorem findBlockEndAux_out (lines : List (List Char)) :
    ∀ (fuel i : Nat) (c : Int) (f : Bool), lines.length ≤ i →
      findBlockEndAux lines fuel i c f = lines.length - 1 := by
  intro fuel
  induction fuel with
  | zero => intro i c f _; rfl
  | succ fuel ih =>
    intro i c f h
    rw [findBlockEndAux, lineAt_out lines i h, scanBraceLine_nil]
    exact ih (i + 1) c f (by omega)

/-- The block-end scan stays within `[i, lines.length - 1]` when it starts in
range. -/
theorem findBlockEndAux_bounds (lines : List (List Char)) :
    ∀ (fuel i : Nat) (c : Int) (f : Bool), i < lines.length →
      i ≤ findBlockEndAux lines fuel i c f ∧
        findBlockEndAux lines fuel i c f ≤ lines.length - 1 := by
  intro fuel
  induction fuel with
  | zero => intro i c f h; rw [findBlockEndAux]; omega
  | succ fuel ih =>
    intro i c f h
    rw [findBlockEndAux]
    split
    · omega
    · next c' f' _ =>
      by_cases h2 : i + 1 < lines.length
      · have := ih (i + 1) c' f' h2
        omega
      · rw [findBlockEndAux_out lines fuel (i + 1) c' f' (by omega)]
        omega

/-- `findBlockEnd` stays within `[startLine, lines.length - 1]` for an
in-range start. -/
theorem findBlockEnd_bounds (lines : List (List Char)) (i : Nat) (h : i < lines.length) :
    i ≤ findBlockEnd lines i ∧ findBlockEnd lines i ≤ lines.length - 1 :=
  findBlockEndAux_bounds lines (lines.length - i) i 0 false h

/-- Pointwise facts about a child list assemble into `weakSpansChildren`. -/
theorem weakSpansChildren_of_forall (last sl el : Nat) :
    ∀ cs : List ASTNode,
      (∀ c ∈ cs, sl ≤ c.startLine ∧ c.startLine ≤ el ∧ c.startLine ≤ c.endLine ∧
        c.endLine ≤ last ∧ weakSpans last c = true) →
      weakSpansChildren last sl el cs = true := by
  intro cs
  induction cs with
  | nil => intro _; rfl
  | cons c cs' ih =>
    intro h
    obtain ⟨h1, h2, h3, h4, h5⟩ := h c (List.mem_cons_self c cs')
    rw [weakSpansChildren]
    simp only [Bool.and_eq_true, decide_eq_true_eq]
    refine ⟨⟨⟨⟨⟨h1, h2⟩, h3⟩, h4⟩, h5⟩, ih (fun c' hc' => h c' (List.mem_cons_of_mem c hc'))⟩

/-- Every node produced by the inner block loop starts within the requested
range, has an ordered span ending inside the document, and satisfies the
weak span discipline recursively. -/
theorem parseBlockLoop_weak (lines : List (List Char)) :
    ∀ (fuel i e skip : Nat), e < lines.length →
      ∀ n ∈ parseBlockLoop lines fuel i e skip,
        i ≤ n.startLine ∧ n.startLine ≤ e ∧ n.startLine ≤ n.endLine ∧
        n.endLine ≤ lines.length - 1 ∧ weakSpans (lines.length - 1) n = true := by
  intro fuel
  induction fuel with
  | zero =>
    intro i e skip he2 n hn
    rw [parseBlockLoop] at hn
    simp at hn
  | succ fuel ih =>
    intro i e skip he2 n hn
    rw [parseBlockLoop] at hn
    by_cases h1 : i > e
    · rw [if_pos h1] at hn; simp at hn
    · rw [if_neg h1] at hn
      by_cases h2 : i < skip
      · rw [if_pos h2] at hn
        obtain ⟨a1, a2, a3, a4, a5⟩ := ih (i + 1) e skip he2 n hn
        exact ⟨by omega, a2, a3, a4, a5⟩
      · rw [if_neg h2] at hn
        have hi : i < lines.length := by omega
        dsimp only at hn
        split at hn
        · -- function branch
          simp only [List.mem_cons] at hn
          rcases hn with hn | hn
          · subst hn
            have hbe := findBlockEnd_bounds lines i hi
            simp only [ASTNode.startLine, ASTNode.endLine]
            refine ⟨le_refl i, by omega, hbe.1, hbe.2, ?_⟩
            rw [weakSpans]
            apply weakSpansChildren_of_forall
            intro c hc
            obtain ⟨b1, b2, b3, b4, b5⟩ := ih (i + 1) (findBlockEnd lines i) 0
              (by omega) c hc
            exact ⟨by omega, b2, b3, b4, b5⟩
          · obtain ⟨a1, a2, a3, a4, a5⟩ :=
              ih (i + 1) e (findBlockEnd lines i + 1) he2 n hn
            exact ⟨by omega, a2, a3, a4, a5⟩
        · -- no function match: variable / block / nothing
          split at hn
          · -- variable branch
            simp only [List.mem_cons] at hn
            rcases hn with hn | hn
            · subst hn
              simp only [ASTNode.startLine, ASTNode.endLine]
              refine ⟨le_refl i, by omega, le_refl i, by omega, ?_⟩
              rw [weakSpans]
              rfl
            · obtain ⟨a1, a2, a3, a4, a5⟩ := ih (i + 1) e skip he2 n hn
              exact ⟨by omega, a2, a3, a4, a5⟩
          · -- keyword test
            split at hn
            · simp only [List.mem_cons] at hn
              rcases hn with hn | hn
              · subst hn
                have hbe := findBlockEnd_bounds lines i hi
                simp only [ASTNode.startLine, ASTNode.endLine]
                refine ⟨le_refl i, by omega, hbe.1, hbe.2, ?_⟩
                rw [weakSpans]
                apply weakSpansChildren_of_forall
                intro c hc
                obtain ⟨b1, b2, b3, b4, b5⟩ := ih (i + 1) (findBlockEnd lines i) 0
                  (by omega) c hc
                exact ⟨by omega, b2, b3, b4, b5⟩
              · obtain ⟨a1, a2, a3, a4, a5⟩ :=
                  ih (i + 1) e (findBlockEnd lines i + 1) he2 n hn
                exact ⟨by omega, a2, a3, a4, a5⟩
            · obtain ⟨a1, a2, a3, a4, a5⟩ := ih (i + 1) e skip he2 n hn
              exact ⟨by omega, a2, a3, a4, a5⟩

/-- Every node produced by the top-level loop satisfies the same weak span
discipline. -/
theorem parseTopLevelLoop_weak (lines : List (List Char)) :
    ∀ (fuel i e skip : Nat), e < lines.length →
      ∀ n ∈ parseTopLevelLoop lines fuel i e skip,
        i ≤ n.startLine ∧ n.startLine ≤ e ∧ n.startLine ≤ n.endLine ∧
        n.endLine ≤ lines.length - 1 ∧ weakSpans (lines.length - 1) n = true := by
  intro fuel
  induction fuel with
  | zero =>
    intro i e skip he2 n hn
    rw [parseTopLevelLoop] at hn
    simp at hn
  | succ fuel ih =>
    intro i e skip he2 n hn
    rw [parseTopLevelLoop] at hn
    by_cases h1 : i > e
    · rw [if_pos h1] at hn; simp at hn
    · rw [if_neg h1] at hn
      by_cases h2 : i < skip
      · rw [if_pos h2] at hn
        obtain ⟨a1, a2, a3, a4, a5⟩ := ih (i + 1) e skip he2 n hn
        exact ⟨by omega, a2, a3, a4, a5⟩
      · rw [if_neg h2] at hn
        have hi : i < lines.length := by omega
        dsimp only at hn
        split at hn
        · -- class branch (leaf)
          simp only [List.mem_cons] at hn
          rcases hn with hn | hn
          · subst hn
            simp only [ASTNode.startLine, ASTNode.endLine]
            refine ⟨le_refl i, by omega, le_refl i, by omega, ?_⟩
            rw [weakSpans]
            rfl
          · obtain ⟨a1, a2, a3, a4, a5⟩ := ih (i + 1) e skip he2 n hn
            exact ⟨by omega, a2, a3, a4, a5⟩
        · -- no class: actor or nothing
          split at hn
          · -- actor branch
            simp only [List.mem_cons] at hn
            rcases hn with hn | hn
            · subst hn
              have hbe := findBlockEnd_bounds lines i hi
              simp only [ASTNode.startLine, ASTNode.endLine]
              refine ⟨le_refl i, by omega, hbe.1, hbe.2, ?_⟩
              rw [weakSpans]
              apply weakSpansChildren_of_forall
              intro c hc
              obtain ⟨b1, b2, b3, b4, b5⟩ := parseBlockLoop_weak lines fuel (i + 1)
                (findBlockEnd lines i) 0 (by omega) c hc
              exact ⟨by omega, b2, b3, b4, b5⟩
            · obtain ⟨a1, a2, a3, a4, a5⟩ :=
                ih (i + 1) e (findBlockEnd lines i + 1) he2 n hn
              exact ⟨by omega, a2, a3, a4, a5⟩
          · obtain ⟨a1, a2, a3, a4, a5⟩ := ih (i + 1) e skip he2 n hn
            exact ⟨by omega, a2, a3, a4, a5⟩

/-- A split never yields an empty line list. -/
theorem splitLinesLF_nonempty : ∀ s : List Char, 1 ≤ (splitLinesLF s).length := by
  intro s
  induction s with
  | nil => simp [splitLinesLF]
  | cons c rest ih =>
    rw [splitLinesLF]
    by_cases h : c = '\n'
    · simp [h]
    · rw [if_neg h]
      rcases hs : splitLinesLF rest with _ | ⟨l, ls⟩
      · simp
      · simp

/-- C4 as amended: for every input text, the parse root spans exactly
`[0, lineCount - 1]`, and the tree satisfies the weak span discipline: every
child's span starts within its parent's span, spans are ordered, and all
spans end by the last line of the document.  (Full child-span containment,
as originally claimed, fails: an unterminated inner block recovers to the
end of the document and may out-run its parent — see the counterexample.) -/
theorem parse_weak_spans (text : String) :
    (parse text).startLine = 0 ∧
    (parse text).endLine = (splitLinesLF text.data).length - 1 ∧
    weakSpans ((splitLinesLF text.data).length - 1) (parse text) = true := by
  have hne := splitLinesLF_nonempty text.data
  refine ⟨rfl, rfl, ?_⟩
  show weakSpans ((splitLinesLF text.data).length - 1)
    (.mk .program "root" 0 0 ((splitLinesLF text.data).length - 1)
      (parseTopLevelLoop (splitLinesLF text.data) (splitLinesLF text.data).length 0
        ((splitLinesLF text.data).length - 1) 0)) = true
  rw [weakSpans]
  apply weakSpansChildren_of_forall
  intro c hc
  exact parseTopLevelLoop_weak (splitLinesLF text.data) (splitLinesLF text.data).length 0
    ((splitLinesLF text.data).length - 1) 0 (by omega) c hc

/-- `takeWhile` passes over a fully-matching prefix. -/
theorem takeWhile_append_all (p : Char → Bool) :
    ∀ (a b : List Char), a.all p = true → (a ++ b).takeWhile p = a ++ b.takeWhile p := by
  intro a
  induction a with
  | nil => intro b _; simp
  | cons c rest ih =>
    intro b ha
    simp only [List.all_cons, Bool.and_eq_true] at ha
    simp only [List.cons_append, List.takeWhile_cons, ha.1, if_pos]
    rw [ih b ha.2]

/-- `dropWhile` consumes a fully-matching prefix. -/
theorem dropWhile_append_all (p : Char → Bool) :
    ∀ (a b : List Char), a.all p = true → (a ++ b).dropWhile p = b.dropWhile p := by
  intro a
  induction a with
  | nil => intro b _; simp
  | cons c rest ih =>
    intro b ha
    simp only [List.all_cons, Bool.and_eq_true] at ha
    simp only [List.cons_append, List.dropWhile_cons, ha.1, if_pos]
    exact ih b ha.2

/-- `takeWhile` stops at a failing head. -/
theorem takeWhile_cons_false (p : Char → Bool) (c : Char) (rest : List Char)
    (h : p c = false) : (c :: rest).takeWhile p = [] := by
  simp [List.takeWhile_cons, h]

/-- `dropWhile` keeps a failing head. -/
theorem dropWhile_cons_false (p : Char → Bool) (c : Char) (rest : List Char)
    (h : p c = false) : (c :: rest).dropWhile p = c :: rest := by
  simp [List.dropWhile_cons, h]

/-- `dropWhile` is the identity when the head (if any) fails. -/
theorem dropWhile_eq_self_of_head (p : Char → Bool) (s : List Char)
    (h : ∀ c rest, s = c :: rest → p c = false) : s.dropWhile p = s := by
  cases s with
  | nil => rfl
  | cons c rest => exact dropWhile_cons_false p c rest (h c rest rfl)

/-- Trimming is the identity on a string with non-whitespace ends. -/
theorem jsTrimL_eq_self (s : List Char)
    (h1 : ∀ c rest, s = c :: rest → jsWs c = false)
    (h2 : ∀ c, s.getLast? = some c → jsWs c = false) : jsTrimL s = s := by
  unfold jsTrimL
  rw [dropWhile_eq_self_of_head jsWs s h1]
  rw [dropWhile_eq_self_of_head jsWs s.reverse (fun c rest hc => by
    apply h2
    rw [← List.head?_reverse]
    rw [hc]
    rfl)]
  exact List.reverse_reverse s

/-- An identifier-start character is not whitespace. -/
theorem identStartChar_not_ws (c : Char) (h : identStartChar c = true) : jsWs c = false := by
  unfold identStartChar at h
  unfold jsWs
  rcases Bool.or_eq_true_iff.mp h with h1 | h1
  · unfold Char.isAlpha Char.isUpper Char.isLower at h1
    rcases Bool.or_eq_true_iff.mp h1 with h2 | h2 <;>
    · simp only [Bool.and_eq_true, decide_eq_true_eq] at h2
      simp only [Bool.or_eq_false_iff, decide_eq_false_iff_not]
      refine ⟨⟨⟨⟨⟨?_, ?_⟩, ?_⟩, ?_⟩, ?_⟩, ?_⟩ <;> intro hc <;> subst hc <;>
        simp_all <;> omega
  · simp only [decide_eq_true_eq] at h1
    subst h1
    rfl

/-- A successful match at position zero is the leftmost match. -/
theorem matchFirst_of_head {α : Type} (f : Option Char → List Char → Option α)
    (s : List Char) (r : α) (h : f none s = some r) : matchFirst f s = some r := by
  cases s with
  | nil => rw [matchFirst, leftmost]; exact h
  | cons c rest => rw [matchFirst, leftmost, h]

/-- On a line of the exact shape `fun name(params) -> ret` (identifier name,
`)`-free params, terminator-free ret with non-whitespace ends), the
registry's method pattern captures the parameter text and the return text. -/
theorem methodSig_on_arrow_line (nm ps ret : List Char)
    (hnm : identString nm = true)
    (hps : ps.all (fun c => c ≠ ')') = true)
    (hret1 : ret ≠ [])
    (hret2 : ret.all dotChar = true)
    (hret3 : ∀ c rest, ret = c :: rest → jsWs c = false) :
    matchFirst methodSigAt ("fun ".data ++ nm ++ "(".data ++ ps ++ ") -> ".data ++ ret)
      = some (ps, some ret) := by
  apply matchFirst_of_head
  obtain ⟨c0, nmrest, hc⟩ : ∃ c0 nmrest, nm = c0 :: nmrest := by
    cases nm with
    | nil => simp [identString] at hnm
    | cons a b => exact ⟨a, b, rfl⟩
  subst hc
  rw [identString] at hnm
  rcases Bool.and_eq_true_iff.mp hnm with ⟨hn1, hn2⟩
  -- position 0: the io-alternative fails on the literal 'f'
  rw [methodSigAt]
  have hio : stripLit "io".data
      ("fun ".data ++ (c0 :: nmrest) ++ "(".data ++ ps ++ ") -> ".data ++ ret) = none := rfl
  rw [hio]
  rw [Option.none_orElse]
  -- the core: strip "fun", one space, the identifier, the parenthesis
  rw [methodSigCore]
  have hstrip : stripLit "fun".data
      ("fun ".data ++ (c0 :: nmrest) ++ "(".data ++ ps ++ ") -> ".data ++ ret)
      = some (' ' :: ((c0 :: nmrest) ++ "(".data ++ ps ++ ") -> ".data ++ ret)) := rfl
  have hmunch : (munch jsWs
      (' ' :: ((c0 :: nmrest) ++ "(".data ++ ps ++ ") -> ".data ++ ret))).2
      = (c0 :: nmrest) ++ "(".data ++ ps ++ ") -> ".data ++ ret := by
    unfold munch
    rw [List.dropWhile_cons]
    rw [if_pos (by rfl)]
    exact dropWhile_cons_false jsWs c0 _ (identStartChar_not_ws c0 hn1)
  have hident : identMunch ((c0 :: nmrest) ++ "(".data ++ ps ++ ") -> ".data ++ ret)
      = some (c0 :: nmrest, '(' :: (ps ++ ") -> ".data ++ ret)) := by
    rw [show (c0 :: nmrest) ++ "(".data ++ ps ++ ") -> ".data ++ ret
        = c0 :: (nmrest ++ ('(' :: (ps ++ ") -> ".data ++ ret))) by simp]
    rw [identMunch]
    rw [if_pos hn1]
    rw [takeWhile_append_all wordChar nmrest _ hn2,
        dropWhile_append_all wordChar nmrest _ hn2]
    rw [takeWhile_cons_false wordChar '(' _ rfl, dropWhile_cons_false wordChar '(' _ rfl]
    simp
  have hmunch2 : (munch jsWs ('(' :: (ps ++ ") -> ".data ++ ret))).2
      = '(' :: (ps ++ ") -> ".data ++ ret) := by
    unfold munch
    exact dropWhile_cons_false jsWs '(' _ rfl
  have hps2 : ps.all (fun c => decide (c ≠ ')')) = true := by
    rw [List.all_eq_true] at hps ⊢
    intro c hcmem
    simpa using hps c hcmem
  have htk : (ps ++ ") -> ".data ++ ret).takeWhile (fun ch => ch ≠ ')') = ps := by
    rw [show ps ++ ") -> ".data ++ ret = ps ++ (')' :: (" -> ".data ++ ret)) by simp]
    rw [takeWhile_append_all _ ps _ hps2]
    rw [takeWhile_cons_false _ ')' _ (by simp)]
    simp
  have hdr : (ps ++ ") -> ".data ++ ret).dropWhile (fun ch => ch ≠ ')')
      = ')' :: (" -> ".data ++ ret) := by
    rw [show ps ++ ") -> ".data ++ ret = ps ++ (')' :: (" -> ".data ++ ret)) by simp]
    rw [dropWhile_append_all _ ps _ hps2]
    exact dropWhile_cons_false _ ')' _ (by simp)
  -- the arrow capture
  have harrow : arrowRetCapture (" -> ".data ++ ret) = some ret := by
    rw [arrowRetCapture]
    have hm3 : (munch jsWs (" -> ".data ++ ret)).2 = "-> ".data ++ ret := by
      unfold munch
      rw [show " -> ".data ++ ret = ' ' :: ("-> ".data ++ ret) by simp]
      rw [List.dropWhile_cons, if_pos (by rfl)]
      exact dropWhile_cons_false jsWs '-' _ rfl
    rw [hm3]
    have hs6 : stripLit "->".data ("-> ".data ++ ret) = some (' ' :: ret) := rfl
    rw [hs6]
    have hcap : ((' ' :: ret).dropWhile jsWs).takeWhile dotChar = ret := by
      rw [List.dropWhile_cons, if_pos (by rfl)]
      rw [dropWhile_eq_self_of_head jsWs ret hret3]
      rw [show ret.takeWhile dotChar = ret ++ [].takeWhile dotChar by
        simpa using takeWhile_append_all dotChar ret [] hret2]
      simp
    dsimp only
    rw [hcap, if_neg (by simpa using hret1)]
  rw [hstrip]
  simp only [show jsWs ' ' = true from rfl, if_true, hmunch, hident, hmunch2, htk, hdr,
    harrow]

/-- C9 as amended: the registry's method harvest uses the arrow pattern
`fun name(params) -> ReturnType` — not the colon pattern of the §4.7
function-return-type pass.  For a class node with a function child declared
on its line as `fun name(params) -> ReturnType` (identifier name, `)`-free
parameter text, terminator-free return text with non-whitespace ends),
`collectUserTypes` harvests exactly one method, named after the child node,
whose recorded return type is `parseTypeString(ReturnType)` and whose
parameters are `parseParams(params)`.  (A colon-declared method is harvested
with return type `Unknown`, displayed `Unit` — see the counterexample.) -/
theorem registry_arrow_method (reg : TypeRegistry) (cname fname : String)
    (nm ps ret : List Char) (lines : List (List Char)) (lnum lend cln csl cel : Nat)
    (hlen : lnum < lines.length)
    (hline : lineAt lines lnum
      = "fun ".data ++ nm ++ "(".data ++ ps ++ ") -> ".data ++ ret)
    (hnm : identString nm = true)
    (hps : ps.all (fun c => c ≠ ')') = true)
    (hret1 : ret ≠ [])
    (hret2 : ret.all dotChar = true)
    (hret3 : ∀ c rest, ret = c :: rest → jsWs c = false)
    (hret4 : ∀ c, ret.getLast? = some c → jsWs c = false) :
    (collectUserTypes reg
        (.mk .classDecl cname cln csl cel [.mk .functionDecl fname lnum lnum lend []])
        lines).userTypes
      = [(cname, ⟨.Custom, cname, none,
           [⟨fname, parseTypeString ret, parseParams ps, none⟩], []⟩)] := by
  have htrimret : jsTrimL ret = ret := jsTrimL_eq_self ret hret3 hret4
  have htrimline : jsTrimL ("fun ".data ++ nm ++ "(".data ++ ps ++ ") -> ".data ++ ret)
      = "fun ".data ++ nm ++ "(".data ++ ps ++ ") -> ".data ++ ret := by
    apply jsTrimL_eq_self
    · intro c rest hc
      rw [show "fun ".data ++ nm ++ "(".data ++ ps ++ ") -> ".data ++ ret
          = 'f' :: ("un ".data ++ nm ++ "(".data ++ ps ++ ") -> ".data ++ ret) from rfl] at hc
      cases hc
      rfl
    · intro c hc
      rw [List.getLast?_append_of_ne_nil _ hret1] at hc
      exact hret4 c hc
  have hpm : parseMethodFromLine lines (.mk .functionDecl fname lnum lnum lend [])
      = some ⟨fname, parseTypeString ret, parseParams ps, none⟩ := by
    rw [parseMethodFromLine]
    rw [show ASTNode.line (.mk .functionDecl fname lnum lnum lend []) = lnum from rfl]
    rw [if_pos hlen]
    rw [hline, htrimline]
    rw [methodSig_on_arrow_line nm ps ret hnm hps hret1 hret2 hret3]
    show some (MethodInfo.mk fname (parseTypeString (jsTrimL ret)) (parseParams ps) none) = _
    rw [htrimret]
  rw [collectUserTypes]
  show collectTypesRecursive lines
      (.mk .classDecl cname cln csl cel [.mk .functionDecl fname lnum lnum lend []]) []
    = _
  rw [collectTypesRecursive]
  rw [show ((NodeKind.classDecl = NodeKind.classDecl || NodeKind.classDecl = NodeKind.actorDecl)) = true from rfl]
  rw [if_pos rfl]
  rw [collectTypesList, collectTypesList, collectTypesRecursive]
  rw [show ((NodeKind.functionDecl = NodeKind.classDecl || NodeKind.functionDecl = NodeKind.actorDecl)) = false from rfl]
  rw [if_neg (by simp)]
  rw [collectTypesList]
  rw [extractTypeDefinition]
  simp only [ASTNode.children, ASTNode.kind, ASTNode.name, List.filterMap_cons,
    List.filterMap_nil, reduceIte, hpm]
  rfl

/-- Witness for the amended C9 theorem: the concrete class
`class Person { fun getAge() -> Int }` harvests `getAge` with return type
`Int` and no parameters. -/
theorem registry_arrow_method_witness :
    (collectUserTypes initialRegistry
        (.mk .classDecl "Person" 0 0 2 [.mk .functionDecl "getAge" 1 1 2 []])
        ["class Person \x7b".data, "fun getAge() -> Int".data, "\x7d".data]).userTypes
      = [("Person", ⟨.Custom, "Person", none,
           [⟨"getAge", make .Int none none none, [], none⟩], []⟩)] := by
  have h := registry_arrow_method initialRegistry "Person" "getAge"
      "getAge".data "".data "Int".data
      ["class Person \x7b".data, "fun getAge() -> Int".data, "\x7d".data]
      1 2 0 0 2
      (by decide) rfl rfl rfl (by decide) rfl
      (fun c rest hc => by cases hc; rfl)
      (fun c hc => by
        rw [show (("Int".data : List Char).getLast?) = some 't' from rfl] at hc
        injection hc with h2
        subst h2
        rfl)
  rw [h, parseTypeString_evalInt]
  rfl

/-- An identifier start character is a word character. -/
theorem identStartChar_word (c : Char) (h : identStartChar c = true) : wordChar c = true := by
  unfold identStartChar at h
  unfold wordChar
  rcases Bool.or_eq_true_iff.mp h with h1 | h1
  · simp [h1]
  · simp [h1]

/-- A digit is not JS whitespace. -/
theorem isDigit_not_ws (c : Char) (h : c.isDigit = true) : jsWs c = false := by
  unfold Char.isDigit at h
  simp only [Bool.and_eq_true, decide_eq_true_eq] at h
  unfold jsWs
  simp only [Bool.or_eq_false_iff, decide_eq_false_iff_not]
  refine ⟨⟨⟨⟨⟨?_, ?_⟩, ?_⟩, ?_⟩, ?_⟩, ?_⟩ <;> intro hc <;> subst hc <;>
    exact absurd h (by decide)

/-- A word character is not JS whitespace. -/
theorem wordChar_not_ws (c : Char) (h : wordChar c = true) : jsWs c = false := by
  unfold wordChar at h
  rcases Bool.or_eq_true_iff.mp h with h1 | h1
  · rcases Bool.or_eq_true_iff.mp h1 with h2 | h2
    · exact identStartChar_not_ws c (by simp [identStartChar, h2])
    · exact isDigit_not_ws c h2
  · exact identStartChar_not_ws c (by simp [identStartChar, h1])

/-- A word character differs from every non-word character. -/
theorem wordChar_ne (c x : Char) (h : wordChar c = true) (hx : wordChar x = false) :
    c ≠ x := by
  intro hcx
  subst hcx
  rw [h] at hx
  cases hx

/-- A word character is none of the comma splitter's delimiters, and is no
line terminator. -/
theorem wordChar_plain (c : Char) (h : wordChar c = true) :
    isOpenBracket c = false ∧ isCloseBracket c = false ∧ (decide (c = ',')) = false
      ∧ dotChar c = true := by
  refine ⟨?_, ?_, ?_, ?_⟩
  · simp only [isOpenBracket, Bool.or_eq_false_iff, decide_eq_false_iff_not]
    exact ⟨⟨⟨wordChar_ne c _ h (by decide), wordChar_ne c _ h (by decide)⟩,
      wordChar_ne c _ h (by decide)⟩, wordChar_ne c _ h (by decide)⟩
  · simp only [isCloseBracket, Bool.or_eq_false_iff, decide_eq_false_iff_not]
    exact ⟨⟨⟨wordChar_ne c _ h (by decide), wordChar_ne c _ h (by decide)⟩,
      wordChar_ne c _ h (by decide)⟩, wordChar_ne c _ h (by decide)⟩
  · simp only [decide_eq_false_iff_not]
    exact wordChar_ne c _ h (by decide)
  · unfold dotChar
    simp only [Bool.and_eq_true, ne_eq, decide_eq_true_eq]
    exact ⟨wordChar_ne c _ h (by decide), wordChar_ne c _ h (by decide)⟩

/-- Every character of an identifier string is a word character. -/
theorem identString_all_word (s : List Char) (h : identString s = true) :
    s.all wordChar = true := by
  cases s with
  | nil => simp [identString] at h
  | cons c rest =>
    rw [identString] at h
    simp only [Bool.and_eq_true] at h
    simp only [List.all_cons, Bool.and_eq_true]
    exact ⟨identStartChar_word c h.1, h.2⟩

/-- The comma splitter scans straight through a run of word characters,
accumulating them into the pending chunk. -/
theorem pcsThroughWord (s : List Char) (h : s.all wordChar = true) :
    ∀ (rest cur : List Char) (depth : Int) (acc : List (List Char)),
      pcsAux (s ++ rest) cur depth acc = pcsAux rest (s.reverse ++ cur) depth acc := by
  induction s with
  | nil => intro rest cur depth acc; simp
  | cons c t ih =>
    intro rest cur depth acc
    simp only [List.all_cons, Bool.and_eq_true] at h
    obtain ⟨hop, hcl, hcm, _⟩ := wordChar_plain c h.1
    rw [List.cons_append, pcsAux, hop, hcl]
    simp only [Bool.false_eq_true, if_false, hcm, Bool.false_and]
    rw [ih h.2 rest (c :: cur) depth acc]
    simp [List.reverse_cons, List.append_assoc]

/-- The first character of an identifier string is an identifier start. -/
theorem identString_head (s : List Char) (h : identString s = true) :
    ∀ c r, s = c :: r → identStartChar c = true := by
  intro c r hc
  subst hc
  rw [identString] at h
  simp only [Bool.and_eq_true] at h
  exact h.1

/-- The rendering of a generic canonical type, at the character level. -/
theorem renderCanon_cons_data (base : String) (a : CanonType) (as_ : List CanonType) :
    (renderCanon (.mk base (a :: as_))).data
      = base.data ++ '<' :: ((renderCanon a ++ renderCanonArgs as_).data ++ ['>']) := by
  rw [renderCanon]
  simp only [String.data_append, List.append_assoc]
  rfl

/-- A canonical rendering begins with an identifier-start character. -/
theorem renderCanon_head (a : CanonType) (h : canonWf a = true) :
    ∀ c r, (renderCanon a).data = c :: r → identStartChar c = true := by
  obtain ⟨base, args⟩ := a
  rw [canonWf] at h
  simp only [Bool.and_eq_true] at h
  intro c r hc
  cases args with
  | nil =>
    rw [renderCanon] at hc
    exact identString_head base.data h.1 c r hc
  | cons x xs =>
    rw [renderCanon_cons_data] at hc
    cases hbd : base.data with
    | nil =>
      have hb := h.1
      simp [identString, hbd] at hb
    | cons c0 t =>
      rw [hbd, List.cons_append] at hc
      injection hc with h1 _
      rw [← h1]
      exact identString_head base.data h.1 c0 t hbd

/-- A canonical rendering ends in a non-whitespace character. -/
theorem renderCanon_last (a : CanonType) (h : canonWf a = true) :
    ∀ c, (renderCanon a).data.getLast? = some c → jsWs c = false := by
  obtain ⟨base, args⟩ := a
  rw [canonWf] at h
  simp only [Bool.and_eq_true] at h
  intro c hc
  cases args with
  | nil =>
    rw [renderCanon] at hc
    have hm : c ∈ base.data := List.mem_of_mem_getLast? hc
    have hw := identString_all_word base.data h.1
    rw [List.all_eq_true] at hw
    exact wordChar_not_ws c (hw c hm)
  | cons x xs =>
    rw [renderCanon_cons_data] at hc
    rw [List.getLast?_append_of_ne_nil _ (by simp)] at hc
    rw [show ('<' :: ((renderCanon x ++ renderCanonArgs xs).data ++ ['>']))
        = ('<' :: (renderCanon x ++ renderCanonArgs xs).data) ++ ['>'] from rfl] at hc
    rw [List.getLast?_concat] at hc
    injection hc with h2
    subst h2
    decide

/-- Trimming is the identity on a canonical rendering. -/
theorem renderTrim (a : CanonType) (h : canonWf a = true) :
    jsTrimL (renderCanon a).data = (renderCanon a).data :=
  jsTrimL_eq_self _ (fun c r hc => identStartChar_not_ws c (renderCanon_head a h c r hc))
    (renderCanon_last a h)

/-- A canonical rendering is non-empty. -/
theorem renderCanon_ne_nil (a : CanonType) (h : canonWf a = true) :
    (renderCanon a).data ≠ [] := by
  obtain ⟨base, args⟩ := a
  rw [canonWf] at h
  simp only [Bool.and_eq_true] at h
  cases hbd : base.data with
  | nil =>
    have hb := h.1
    simp [identString, hbd] at hb
  | cons c0 t =>
    cases args with
    | nil => rw [renderCanon, hbd]; simp
    | cons x xs => rw [renderCanon_cons_data, hbd]; simp

/-- `all dotChar` distributes over append (specialised combinator). -/
theorem dotChar_all_append (u v : List Char) (hu : u.all dotChar = true)
    (hv : v.all dotChar = true) : (u ++ v).all dotChar = true := by
  rw [List.all_append, hu, hv]
  rfl

/-- Word characters are no line terminators, list form. -/
theorem word_all_dot (s : List Char) (h : s.all wordChar = true) :
    s.all dotChar = true := by
  rw [List.all_eq_true] at h ⊢
  intro x hx
  exact (wordChar_plain x (h x hx)).2.2.2

mutual
/-- A canonical rendering contains no line terminator (node form). -/
theorem renderDot (a : CanonType) (h : canonWf a = true) :
    (renderCanon a).data.all dotChar = true :=
  match a with
  | .mk base args => by
    rw [canonWf] at h
    simp only [Bool.and_eq_true] at h
    have hbase := word_all_dot base.data (identString_all_word base.data h.1)
    cases args with
    | nil => rw [renderCanon]; exact hbase
    | cons x xs =>
      have hx1 := h.2
      rw [canonWfList] at hx1
      simp only [Bool.and_eq_true] at hx1
      rw [renderCanon_cons_data]
      apply dotChar_all_append _ _ hbase
      rw [show ('<' :: ((renderCanon x ++ renderCanonArgs xs).data ++ ['>']))
          = ['<'] ++ ((renderCanon x ++ renderCanonArgs xs).data ++ ['>']) from rfl]
      apply dotChar_all_append _ _ (by decide)
      apply dotChar_all_append _ _ ?_ (by decide)
      rw [String.data_append]
      exact dotChar_all_append _ _ (renderDot x hx1.1) (renderArgsDot xs hx1.2)

/-- A canonical rendering contains no line terminator (argument-list form). -/
theorem renderArgsDot (bs : List CanonType) (h : canonWfList bs = true) :
    (renderCanonArgs bs).data.all dotChar = true :=
  match bs with
  | [] => by rw [renderCanonArgs]; rfl
  | b :: bs' => by
    rw [canonWfList] at h
    simp only [Bool.and_eq_true] at h
    rw [renderCanonArgs]
    simp only [String.data_append]
    exact dotChar_all_append _ _
      (dotChar_all_append _ _ (by decide) (renderDot b h.1)) (renderArgsDot bs' h.2)
end

mutual
/-- The comma splitter scans straight through one canonical rendering: every
comma inside it sits at bracket depth at least one above the ambient depth,
so no split fires and the characters accumulate into the pending chunk. -/
theorem pcsRender (a : CanonType) (h : canonWf a = true) :
    ∀ (rest cur : List Char) (depth : Int) (acc : List (List Char)), 0 ≤ depth →
      pcsAux ((renderCanon a).data ++ rest) cur depth acc
        = pcsAux rest ((renderCanon a).data.reverse ++ cur) depth acc :=
  match a with
  | .mk base args => by
    rw [canonWf] at h
    simp only [Bool.and_eq_true] at h
    intro rest cur depth acc hd
    have hword := identString_all_word base.data h.1
    cases args with
    | nil =>
      rw [renderCanon]
      exact pcsThroughWord base.data hword rest cur depth acc
    | cons x xs =>
      have hx := h.2
      rw [canonWfList] at hx
      simp only [Bool.and_eq_true] at hx
      rw [renderCanon_cons_data, List.append_assoc, pcsThroughWord base.data hword]
      rw [show ('<' :: ((renderCanon x ++ renderCanonArgs xs).data ++ ['>'])) ++ rest
          = '<' :: ((renderCanon x).data
              ++ ((renderCanonArgs xs).data ++ ('>' :: rest))) from by
        simp [String.data_append, List.append_assoc]]
      rw [pcsAux, if_pos (show isOpenBracket '<' = true from rfl)]
      rw [pcsRender x hx.1 _ _ _ _ (by omega)]
      rw [pcsRenderArgs xs hx.2 _ _ _ _ (by omega)]
      rw [pcsAux, if_neg (show ¬ isOpenBracket '>' = true from by decide),
        if_pos (show isCloseBracket '>' = true from rfl)]
      rw [show (depth + 1 - 1 : Int) = depth from by omega]
      congr 1
      simp [String.data_append, List.reverse_append, List.append_assoc]

/-- The comma splitter scans straight through a canonical argument tail at
depth at least one: the separating commas do not fire either. -/
theorem pcsRenderArgs (bs : List CanonType) (h : canonWfList bs = true) :
    ∀ (rest cur : List Char) (depth : Int) (acc : List (List Char)), 1 ≤ depth →
      pcsAux ((renderCanonArgs bs).data ++ rest) cur depth acc
        = pcsAux rest ((renderCanonArgs bs).data.reverse ++ cur) depth acc :=
  match bs with
  | [] => by
    intro rest cur depth acc _
    rw [renderCanonArgs]
    rfl
  | b :: bs' => by
    rw [canonWfList] at h
    simp only [Bool.and_eq_true] at h
    intro rest cur depth acc hd
    have hdep : (decide (depth = 0)) = false := decide_eq_false (by omega)
    rw [renderCanonArgs]
    rw [show ((", " ++ renderCanon b ++ renderCanonArgs bs') : String).data ++ rest
        = ',' :: ' ' :: ((renderCanon b).data
            ++ ((renderCanonArgs bs').data ++ rest)) from by
      simp [String.data_append, List.append_assoc]]
    rw [pcsAux, if_neg (show ¬ isOpenBracket ',' = true from by decide),
      if_neg (show ¬ isCloseBracket ',' = true from by decide)]
    rw [show ((decide ((',' : Char) = ',')) && decide (depth = 0))
        = false from by rw [hdep, Bool.and_false]]
    simp only [Bool.false_eq_true, if_false]
    rw [pcsAux, if_neg (show ¬ isOpenBracket ' ' = true from by decide),
      if_neg (show ¬ isCloseBracket ' ' = true from by decide)]
    rw [show (decide ((' ' : Char) = ',')) = false from by decide, Bool.false_and]
    simp only [Bool.false_eq_true, if_false]
    rw [pcsRender b h.1 _ _ _ _ (by omega)]
    rw [pcsRenderArgs bs' h.2 _ _ _ _ hd]
    congr 1
    simp [String.data_append, List.reverse_append, List.append_assoc]
end

/-- Trimming discards a leading space. -/
theorem jsTrimL_cons_space (s : List Char) : jsTrimL (' ' :: s) = jsTrimL s := by
  unfold jsTrimL
  rw [List.dropWhile_cons]
  simp [show jsWs ' ' = true from rfl]

/-- The comma splitter cuts a canonical argument list at exactly the
separating commas, trimming the one space that follows each: with a pending
chunk that trims to `chunk`, the result is the finished arguments, then
`chunk`, then one chunk per remaining canonical argument. -/
theorem pcsArgsSplit (bs : List CanonType) :
    ∀ (cur : List Char) (acc : List (List Char)) (chunk : List Char),
      canonWfList bs = true →
      jsTrimL cur.reverse = chunk → chunk.isEmpty = false →
      pcsAux (renderCanonArgs bs).data cur 0 acc
        = acc.reverse ++ chunk :: bs.map (fun b => (renderCanon b).data) := by
  induction bs with
  | nil =>
    intro cur acc chunk _ hc he
    rw [renderCanonArgs]
    show pcsAux [] cur 0 acc = _
    rw [pcsAux]
    rw [hc, he]
    simp
  | cons b bs' ih =>
    intro cur acc chunk h hc he
    rw [canonWfList] at h
    simp only [Bool.and_eq_true] at h
    rw [renderCanonArgs]
    rw [show ((", " ++ renderCanon b ++ renderCanonArgs bs') : String).data
        = ',' :: ' ' :: ((renderCanon b).data ++ (renderCanonArgs bs').data) from by
      simp [String.data_append, List.append_assoc]]
    rw [pcsAux, if_neg (show ¬ isOpenBracket ',' = true from by decide),
      if_neg (show ¬ isCloseBracket ',' = true from by decide)]
    rw [show ((decide ((',' : Char) = ',')) && decide ((0 : Int) = 0)) = true from by decide]
    rw [if_pos rfl, hc]
    rw [pcsAux, if_neg (show ¬ isOpenBracket ' ' = true from by decide),
      if_neg (show ¬ isCloseBracket ' ' = true from by decide)]
    rw [show (decide ((' ' : Char) = ',')) = false from by decide, Bool.false_and]
    simp only [Bool.false_eq_true, if_false]
    rw [pcsRender b h.1 _ _ _ _ (by omega)]
    have hcur : jsTrimL (((renderCanon b).data.reverse ++ [' ']).reverse)
        = (renderCanon b).data := by
      rw [List.reverse_append, List.reverse_reverse]
      rw [show (([' '] : List Char).reverse ++ (renderCanon b).data)
          = ' ' :: (renderCanon b).data from by simp]
      rw [jsTrimL_cons_space, renderTrim b h.1]
    have hne : ((renderCanon b).data).isEmpty = false := by
      cases hbd : (renderCanon b).data with
      | nil => exact absurd hbd (renderCanon_ne_nil b h.1)
      | cons c t => rfl
    rw [ih _ (chunk :: acc) ((renderCanon b).data) h.2 hcur hne]
    simp [List.append_assoc]

/-- `parseCommaSeparated` recovers exactly the renderings of the canonical
arguments from a rendered argument interior. -/
theorem parseCommaSeparated_render (a : CanonType) (as_ : List CanonType)
    (ha : canonWf a = true) (has : canonWfList as_ = true) :
    parseCommaSeparated ((renderCanon a ++ renderCanonArgs as_)).data
      = (renderCanon a).data :: as_.map (fun b => (renderCanon b).data) := by
  unfold parseCommaSeparated
  rw [String.data_append]
  rw [pcsRender a ha ((renderCanonArgs as_).data) [] 0 [] (by omega)]
  have hcur : jsTrimL (((renderCanon a).data.reverse ++ ([] : List Char)).reverse)
      = (renderCanon a).data := by
    rw [List.append_nil, List.reverse_reverse, renderTrim a ha]
  have hne : ((renderCanon a).data).isEmpty = false := by
    cases hbd : (renderCanon a).data with
    | nil => exact absurd hbd (renderCanon_ne_nil a ha)
    | cons c t => rfl
  rw [pcsArgsSplit as_ _ _ _ has hcur hne]
  simp

/-- The generic-head pattern rejects a bare identifier: the match consumes the
whole string and finds no `<`. -/
theorem ghm_ident_none (s : List Char) (h : identString s = true) :
    genericHeadMatch s = none := by
  cases s with
  | nil => simp [identString] at h
  | cons c t =>
    rw [identString] at h
    simp only [Bool.and_eq_true] at h
    have htk : t.takeWhile wordChar = t := by
      have := takeWhile_append_all wordChar t [] h.2
      simpa using this
    have hdr : t.dropWhile wordChar = ([] : List Char) := by
      have := dropWhile_append_all wordChar t [] h.2
      simpa using this
    rw [genericHeadMatch, identMunch, if_pos h.1, htk, hdr]
    rfl

/-- The generic-head pattern on a rendered generic canonical type captures
exactly the base name and the bracket interior. -/
theorem ghm_render_cons (base : String) (x : CanonType) (xs : List CanonType)
    (h : canonWf (.mk base (x :: xs)) = true) :
    genericHeadMatch ((renderCanon (.mk base (x :: xs))).data)
      = some (base.data, (renderCanon x ++ renderCanonArgs xs).data) := by
  rw [canonWf] at h
  simp only [Bool.and_eq_true] at h
  obtain ⟨hb, hxs0⟩ := h
  have hxs := hxs0
  rw [canonWfList] at hxs
  simp only [Bool.and_eq_true] at hxs
  cases hbd : base.data with
  | nil => simp [identString, hbd] at hb
  | cons c0 t =>
    have hb' := hb
    rw [hbd, identString] at hb'
    simp only [Bool.and_eq_true] at hb'
    have e1 : identMunch (base.data ++ '<' :: ((renderCanon x ++ renderCanonArgs xs).data ++ ['>']))
        = some (base.data, '<' :: ((renderCanon x ++ renderCanonArgs xs).data ++ ['>'])) := by
      rw [hbd, List.cons_append, identMunch, if_pos hb'.1,
        takeWhile_append_all _ _ _ hb'.2, dropWhile_append_all _ _ _ hb'.2,
        takeWhile_cons_false _ _ _ (by decide), dropWhile_cons_false _ _ _ (by decide)]
      simp
    have e2 : (munch jsWs ('<' :: ((renderCanon x ++ renderCanonArgs xs).data ++ ['>']))).2
        = '<' :: ((renderCanon x ++ renderCanonArgs xs).data ++ ['>']) := by
      show ('<' :: ((renderCanon x ++ renderCanonArgs xs).data ++ ['>'])).dropWhile jsWs = _
      exact dropWhile_cons_false _ _ _ (by decide)
    have e3 : (((renderCanon x ++ renderCanonArgs xs).data ++ ['>']).getLast?)
        = some '>' := List.getLast?_concat _
    have e4 : ((renderCanon x ++ renderCanonArgs xs).data ++ ['>']).dropLast
        = (renderCanon x ++ renderCanonArgs xs).data := List.dropLast_concat
    have e5 : ((renderCanon x ++ renderCanonArgs xs).data).isEmpty = false := by
      rw [String.data_append]
      cases hxd : (renderCanon x).data with
      | nil => exact absurd hxd (renderCanon_ne_nil x hxs.1)
      | cons c' t' => rfl
    have e6 : ((renderCanon x ++ renderCanonArgs xs).data).all dotChar = true := by
      rw [String.data_append]
      exact dotChar_all_append _ _ (renderDot x hxs.1) (renderArgsDot xs hxs.2)
    rw [renderCanon_cons_data, genericHeadMatch, e1]
    dsimp only
    rw [e2]
    dsimp only
    rw [e3, e4, e5, e6]
    simp [hbd]

/-- The recursive generics of `parseTypeString`, with the termination
`attach` peeled off. -/
theorem attach_map_pts (l : List (List Char)) :
    l.attach.map (fun p => parseTypeString p.1) = l.map parseTypeString :=
  List.attach_map_coe l parseTypeString

/-- `parseTypeString`, unfolded on an input whose trim matches the generic
head pattern. -/
theorem parseTypeString_ghm_some (s base mid : List Char)
    (h : genericHeadMatch (jsTrimL s) = some (base, mid)) :
    parseTypeString s = make (typeNameToKind (String.mk base))
      (some ((parseCommaSeparated mid).map parseTypeString))
      (if typeNameToKind (String.mk base) = TypeKind.Custom
        then some (String.mk base) else none)
      none := by
  rw [parseTypeString.eq_def]
  split
  next baseName genericsStr hm =>
    rw [h] at hm
    injection hm with hm1
    injection hm1 with ha hb2
    subst ha
    subst hb2
    rw [attach_map_pts]
  next hm =>
    rw [h] at hm
    simp at hm

/-- `parseTypeString`, unfolded on an input whose trim does not match the
generic head pattern. -/
theorem parseTypeString_ghm_none (s : List Char)
    (h : genericHeadMatch (jsTrimL s) = none) :
    parseTypeString s = make (typeNameToKind (String.mk (jsTrimL s))) none
      (if typeNameToKind (String.mk (jsTrimL s)) = TypeKind.Custom
        then some (String.mk (jsTrimL s)) else none)
      none := by
  rw [parseTypeString.eq_def]
  split
  next baseName genericsStr hm =>
    rw [h] at hm
    simp at hm
  next hm =>
    rfl

/-- The displayed base name of a parsed simple name is the name itself: a
builtin kind renders through `kindStr` as the very string that selected it,
and any other name is preserved in `readonlyName`. -/
theorem nameRound (n : String) :
    (Option.getD (if typeNameToKind n = TypeKind.Custom then some n else none)
      (kindStr (typeNameToKind n))) = n := by
  by_cases h1 : n = "Int"
  · simp [typeNameToKind, h1, kindStr]
  by_cases h2 : n = "String"
  · simp [typeNameToKind, h1, h2, kindStr]
  by_cases h3 : n = "Bool"
  · simp [typeNameToKind, h1, h2, h3, kindStr]
  by_cases h4 : n = "List"
  · simp [typeNameToKind, h1, h2, h3, h4, kindStr]
  by_cases h5 : n = "MutableMap"
  · simp [typeNameToKind, h1, h2, h3, h4, h5, kindStr]
  by_cases h6 : n = "MutableSet"
  · simp [typeNameToKind, h1, h2, h3, h4, h5, h6, kindStr]
  by_cases h7 : n = "Function"
  · simp [typeNameToKind, h1, h2, h3, h4, h5, h6, h7, kindStr]
  · simp [typeNameToKind, h1, h2, h3, h4, h5, h6, h7, kindStr]

mutual
/-- Round trip on one canonical type: parsing its rendering and displaying
the result reproduces the rendering. -/
theorem roundtripAux (a : CanonType) (h : canonWf a = true) :
    typeToString (parseTypeString (renderCanon a).data) = renderCanon a :=
  match a with
  | .mk base [] => by
    have h0 := h
    rw [canonWf] at h0
    simp only [Bool.and_eq_true] at h0
    rw [renderCanon]
    have htrb : jsTrimL base.data = base.data := by
      have := renderTrim (.mk base []) h
      rwa [renderCanon] at this
    have hg : genericHeadMatch (jsTrimL base.data) = none := by
      rw [htrb]
      exact ghm_ident_none base.data h0.1
    rw [parseTypeString_ghm_none base.data hg, htrb]
    rw [show String.mk base.data = base from rfl]
    simp only [make]
    rw [typeToString]
    exact nameRound base
  | .mk base (x :: xs) => by
    have h0 := h
    rw [canonWf] at h0
    simp only [Bool.and_eq_true] at h0
    have hxs := h0.2
    rw [canonWfList] at hxs
    simp only [Bool.and_eq_true] at hxs
    have htr := renderTrim (.mk base (x :: xs)) h
    have hg' : genericHeadMatch (jsTrimL (renderCanon (.mk base (x :: xs))).data)
        = some (base.data, (renderCanon x ++ renderCanonArgs xs).data) := by
      rw [htr]
      exact ghm_render_cons base x xs h
    rw [parseTypeString_ghm_some _ _ _ hg']
    rw [parseCommaSeparated_render x xs hxs.1 hxs.2]
    rw [show String.mk base.data = base from rfl]
    rw [List.map_cons, List.map_map]
    rw [show (parseTypeString ∘ fun b => (renderCanon b).data)
        = (fun b => parseTypeString (renderCanon b).data) from rfl]
    simp only [make]
    rw [typeToString]
    rw [roundtripArgsAux x xs hxs.1 hxs.2]
    rw [nameRound base, renderCanon]
    simp [String.append_assoc]
    simp
termination_by sizeOf a
decreasing_by
  all_goals simp
  all_goals omega

/-- Round trip on a canonical head argument and tail: the rendered generic
arguments re-display as the comma-space joined argument text. -/
theorem roundtripArgsAux (b : CanonType) (bs : List CanonType)
    (hb : canonWf b = true) (hbs : canonWfList bs = true) :
    typeToStringList (parseTypeString (renderCanon b).data
        :: bs.map (fun x => parseTypeString (renderCanon x).data))
      = renderCanon b ++ renderCanonArgs bs :=
  match bs with
  | [] => by
    rw [List.map_nil, typeToStringList]
    rw [roundtripAux b hb]
    rw [renderCanonArgs, String.append_empty]
  | c :: cs => by
    rw [canonWfList] at hbs
    simp only [Bool.and_eq_true] at hbs
    rw [List.map_cons, typeToStringList]
    rw [roundtripAux b hb]
    rw [roundtripArgsAux c cs hbs.1 hbs.2]
    rw [renderCanonArgs]
    simp [String.append_assoc]
termination_by sizeOf b + sizeOf bs
decreasing_by
  all_goals simp
  all_goals omega
end

/-- C10: round trip of type display and parsing — for every canonical type
string (an identifier base name, optionally followed by angle-bracketed
canonical generic arguments separated by a comma and exactly one space, with
no other whitespace; here the renderings of well-formed `CanonType` trees),
`typeToString (parseTypeString s)` equals `s`. -/
theorem typeToString_parseTypeString_roundtrip (a : CanonType) (h : canonWf a = true) :
    typeToString (parseTypeString (renderCanon a).data) = renderCanon a :=
  roundtripAux a h

/-- Witness for the C10 round trip at the canonical string
`MutableMap<String, List<Int>>`. -/
theorem typeToString_parseTypeString_roundtrip_witness :
    renderCanon (.mk "MutableMap" [.mk "String" [], .mk "List" [.mk "Int" []]])
        = "MutableMap<String, List<Int>>" ∧
    canonWf (.mk "MutableMap" [.mk "String" [], .mk "List" [.mk "Int" []]]) = true ∧
    typeToString (parseTypeString
        (renderCanon (.mk "MutableMap" [.mk "String" [], .mk "List" [.mk "Int" []]])).data)
      = renderCanon (.mk "MutableMap" [.mk "String" [], .mk "List" [.mk "Int" []]]) :=
  ⟨by decide, by decide, typeToString_parseTypeString_roundtrip _ (by decide)⟩
